import Mathlib

/-!
Verification of the uget resolver/retriever core (`src/core/queue.go`,
`src/core/file.go`, the client facade) against its specification.

The Go code is shallowly embedded: the priority-queue slice `pQueue` becomes a
`List Request`, the `container/heap` routines (`up`, `down`, `Push`, `Pop`,
`Fix`, `Remove` from the Go standard library, which `queue.go` drives) become
recursive functions on lists, the dispatcher goroutine `queue.dispatch`
becomes a step function over an explicit state consuming a list of scheduler
events, and the `File` variants of `file.go` become an inductive type whose
methods return `Res α` (`ok` or `panic`) so that Go runtime panics are values.
-/

set_option autoImplicit false

open scoped List

namespace Uget

/-- Modelled from the spec: the `request` type lives in a source file absent
from `src/` (only `queue.go` and the client use it).  Per the spec's data
model a request carries a priority integer (lower served first), a monotone
insertion-order integer used as tie-breaker, a `resolved?` flag, and (once
resolved) the `File` binding.  The bound file's mutable `popOrder` field
(`file.setPopOrder` in `src/core/file.go`) and its identity are inlined here
as `popOrder` and `fid`. -/
structure Request where
  prio : Int
  ord : Nat
  resolved : Bool
  url : String
  popOrder : Int
  fid : Nat
deriving DecidableEq, Repr

/-- Modelled from the spec: `request.less` (absent source file), specified as
`a.priority < b.priority`, with insertion-order as deterministic tie-breaker
(lower wins).  `pQueue.Less` in `src/core/queue.go` delegates to it. -/
def Request.less (a b : Request) : Bool :=
  decide (a.prio < b.prio) || (a.prio == b.prio && decide (a.ord < b.ord))

theorem Request.less_iff (a b : Request) :
    a.less b = true ↔ (a.prio < b.prio ∨ (a.prio = b.prio ∧ a.ord < b.ord)) := by
  simp [Request.less]

theorem Request.not_less_iff (a b : Request) :
    a.less b = false ↔ (b.prio < a.prio ∨ (a.prio = b.prio ∧ b.ord ≤ a.ord)) := by
  rw [← Bool.not_eq_true, Request.less_iff]
  omega

theorem Request.less_asymm {a b : Request} (h : a.less b = true) : b.less a = false := by
  rw [Request.less_iff] at h
  rw [Request.not_less_iff]
  omega

theorem Request.not_less_trans {a b c : Request}
    (hab : a.less b = false) (hbc : b.less c = false) : a.less c = false := by
  rw [Request.not_less_iff] at *
  omega

theorem Request.not_less_of_not_less_of_less {a b c : Request}
    (hab : a.less b = false) (hcb : c.less b = true) : a.less c = false := by
  rw [Request.not_less_iff] at hab ⊢
  rw [Request.less_iff] at hcb
  omega

theorem Request.less_irrefl (a : Request) : a.less a = false := by
  rw [Request.not_less_iff]
  omega

/-- Changing only the bound file's `popOrder` does not affect the ordering. -/
theorem Request.less_setPopOrder_right (a b : Request) (o : Int) :
    a.less { b with popOrder := o } = a.less b := rfl

theorem Request.less_setPopOrder_left (a b : Request) (o : Int) :
    Request.less { a with popOrder := o } b = a.less b := rfl

/-! ### The `Swap` of `pQueue` (`pq[i], pq[j] = pq[j], pq[i]`) on lists -/

/-- `pQueue.Swap` from `src/core/queue.go`: exchange the entries at `i` and
`j`.  Out-of-range indices leave the list unchanged (the dispatcher only ever
swaps in range). -/
def lswap (l : List Request) (i j : Nat) : List Request :=
  match l[i]?, l[j]? with
  | some a, some b => (l.set i b).set j a
  | _, _ => l

theorem lswap_length (l : List Request) (i j : Nat) :
    (lswap l i j).length = l.length := by
  unfold lswap
  cases h1 : l[i]? <;> cases h2 : l[j]? <;> simp

theorem lswap_getElem? (l : List Request) (i j : Nat)
    (hi : i < l.length) (hj : j < l.length) (k : Nat) :
    (lswap l i j)[k]? = if k = j then l[i]? else if k = i then l[j]? else l[k]? := by
  unfold lswap
  rw [List.getElem?_eq_getElem hi, List.getElem?_eq_getElem hj]
  rcases Decidable.em (k = j) with hkj | hkj
  · subst hkj
    simp [List.getElem?_set, hj]
  · rcases Decidable.em (k = i) with hki | hki
    · subst hki
      simp [List.getElem?_set, Ne.symm hkj, hi, hkj]
    · simp [List.getElem?_set, Ne.symm hkj, Ne.symm hki, hkj, hki]

theorem set_self_eq {l : List Request} {i : Nat} {a : Request}
    (h : l[i]? = some a) : l.set i a = l := by
  apply List.ext_getElem?
  intro k
  rcases Decidable.em (k = i) with rfl | hk
  · rw [List.getElem?_set_self (by rw [List.getElem?_eq_some] at h; exact h.1)]
    exact h.symm
  · rw [List.getElem?_set_ne (Ne.symm hk)]

theorem lswap_comm (l : List Request) (i j : Nat) : lswap l i j = lswap l j i := by
  unfold lswap
  rcases Decidable.em (i = j) with rfl | hij
  · rfl
  · cases h1 : l[i]? <;> cases h2 : l[j]? <;> try rfl
    exact List.set_comm _ _ _ hij

theorem lswap_cons_succ (x : Request) (l : List Request) (i j : Nat) :
    lswap (x :: l) (i + 1) (j + 1) = x :: lswap l i j := by
  unfold lswap
  rw [List.getElem?_cons_succ, List.getElem?_cons_succ]
  cases h1 : l[i]? <;> cases h2 : l[j]? <;> simp [List.set_cons_succ]

/-- Decomposition of a list at a valid index. -/
theorem eq_take_cons_drop {l : List Request} {j : Nat} {a : Request}
    (h : l[j]? = some a) : l = l.take j ++ a :: l.drop (j + 1) := by
  rw [List.getElem?_eq_some] at h
  obtain ⟨hj, ha⟩ := h
  conv_lhs => rw [← List.take_append_drop j l]
  rw [← List.getElem_cons_drop l j hj, ha]

theorem lswap_zero_succ_perm (x : Request) (l : List Request) (j : Nat)
    (hj : j < l.length) : lswap (x :: l) 0 (j + 1) ~ x :: l := by
  unfold lswap
  rw [List.getElem?_cons_zero, List.getElem?_cons_succ,
    List.getElem?_eq_getElem hj]
  simp only [List.set_cons_zero, List.set_cons_succ]
  have hd : l = l.take j ++ l[j] :: l.drop (j + 1) :=
    eq_take_cons_drop (List.getElem?_eq_getElem hj)
  have hs : l.set j x = l.take j ++ x :: l.drop (j + 1) :=
    List.set_eq_take_cons_drop x hj
  rw [hs]
  calc l[j] :: (l.take j ++ x :: l.drop (j + 1))
      ~ l[j] :: x :: (l.take j ++ l.drop (j + 1)) := (List.perm_middle).cons _
    _ ~ x :: l[j] :: (l.take j ++ l.drop (j + 1)) := List.Perm.swap _ _ _
    _ ~ x :: l := by
        refine List.Perm.cons _ ?_
        conv_rhs => rw [hd]
        exact List.perm_middle.symm

theorem lswap_perm (l : List Request) (i j : Nat) : lswap l i j ~ l := by
  induction l generalizing i j with
  | nil => unfold lswap; simp
  | cons x l ih =>
    match i, j with
    | 0, 0 =>
      unfold lswap
      simp
    | 0, j + 1 =>
      rcases Decidable.em (j < l.length) with hj | hj
      · exact lswap_zero_succ_perm x l j hj
      · have hn : (x :: l)[j + 1]? = none := by
          rw [List.getElem?_cons_succ]
          exact List.getElem?_eq_none (by omega)
        unfold lswap
        rw [hn]
        cases h0 : (x :: l)[0]? <;> simp
    | i + 1, 0 =>
      rw [lswap_comm]
      rcases Decidable.em (i < l.length) with hi | hi
      · exact lswap_zero_succ_perm x l i hi
      · have hn : (x :: l)[i + 1]? = none := by
          rw [List.getElem?_cons_succ]
          exact List.getElem?_eq_none (by omega)
        unfold lswap
        rw [hn]
        cases h0 : (x :: l)[0]? <;> simp
    | i + 1, j + 1 =>
      rw [lswap_cons_succ]
      exact (ih i j).cons x

/-! ### The Go standard library `container/heap` routines driven by `queue.go`

`up` and `down` are the sift routines of `container/heap`; `Less` is
`pQueue.Less`, `Swap` is `pQueue.Swap`.  `down`'s Boolean result reports
whether the element moved. -/

/-- `container/heap.up`: sift the entry at `j` towards the root while it is
`Less` than its parent. -/
def up (l : List Request) (j : Nat) : List Request :=
  if _hj : j = 0 then l
  else
    match l[(j - 1) / 2]?, l[j]? with
    | some p, some c =>
      if c.less p then up (lswap l ((j - 1) / 2) j) ((j - 1) / 2) else l
    | _, _ => l
termination_by j
decreasing_by omega

/-- The child index `down` selects: the left child `j1`, or the right child
when it exists and is `Less` than the left. -/
def minChild (l : List Request) (j1 n : Nat) : Nat :=
  if j1 + 1 < n then
    match l[j1 + 1]?, l[j1]? with
    | some c2, some c1 => if c2.less c1 then j1 + 1 else j1
    | _, _ => j1
  else j1

theorem minChild_cases (l : List Request) (j1 n : Nat) :
    minChild l j1 n = j1 ∨ (minChild l j1 n = j1 + 1 ∧ j1 + 1 < n) := by
  unfold minChild
  split
  · split
    · split
      · right; constructor
        · rfl
        · assumption
      · left; rfl
    · left; rfl
  · left; rfl

/-- `container/heap.down` (recursion core): sift the entry at `i` down within
the prefix of length `n`, returning the final position of the entry. -/
def downAux (l : List Request) (i n : Nat) : List Request × Nat :=
  if _h1 : 2 * i + 1 < n then
    let j := minChild l (2 * i + 1) n
    match l[j]?, l[i]? with
    | some c, some p =>
      if c.less p then downAux (lswap l i j) j n else (l, i)
    | _, _ => (l, i)
  else (l, i)
termination_by n - i
decreasing_by
  rcases minChild_cases l (2 * i + 1) n with h | ⟨h, h2⟩ <;> omega

/-- `container/heap.down`: the Boolean result is `i0 < i`, i.e. whether the
entry moved. -/
def downN (l : List Request) (i n : Nat) : List Request × Bool :=
  ((downAux l i n).1, decide (i < (downAux l i n).2))

/-! ### Structural lemmas for `up` and `down` -/

theorem up_length (l : List Request) (j : Nat) : (up l j).length = l.length := by
  induction j using Nat.strong_induction_on generalizing l with
  | _ j ih =>
    unfold up
    split
    · rfl
    · rename_i hj
      split
      · rename_i p c hp hc
        split
        · rw [ih _ (by omega), lswap_length]
        · rfl
      · rfl

theorem up_getElem?_gt (l : List Request) (j : Nat) (k : Nat) (hk : j < k) :
    (up l j)[k]? = l[k]? := by
  induction j using Nat.strong_induction_on generalizing l with
  | _ j ih =>
    unfold up
    split
    · rfl
    · rename_i hj
      split
      · rename_i p c hp hc
        split
        · rw [ih _ (by omega) _ (by omega)]
          have hjl : j < l.length := (List.getElem?_eq_some.mp hc).1
          have hil : (j - 1) / 2 < l.length := (List.getElem?_eq_some.mp hp).1
          rw [lswap_getElem? l _ j hil hjl k]
          simp only [if_neg (by omega : ¬k = j), if_neg (by omega : ¬k = (j - 1) / 2)]
        · rfl
      · rfl

theorem up_perm (l : List Request) (j : Nat) : up l j ~ l := by
  induction j using Nat.strong_induction_on generalizing l with
  | _ j ih =>
    unfold up
    split
    · exact List.Perm.refl l
    · rename_i hj
      split
      · rename_i p c hp hc
        split
        · exact (ih _ (by omega) _).trans (lswap_perm _ _ _)
        · exact List.Perm.refl l
      · exact List.Perm.refl l

/-! Unfolding equations for `downAux`. -/

theorem downAux_base {l : List Request} {i n : Nat} (h1 : ¬ 2 * i + 1 < n) :
    downAux l i n = (l, i) := by
  unfold downAux
  rw [dif_neg h1]

theorem downAux_none {l : List Request} {i n : Nat} (h1 : 2 * i + 1 < n)
    (h : l[minChild l (2 * i + 1) n]? = none ∨ l[i]? = none) :
    downAux l i n = (l, i) := by
  unfold downAux
  rw [dif_pos h1]
  rcases h with h | h
  · simp only [h]
  · simp only [h]
    cases l[minChild l (2 * i + 1) n]? <;> rfl

theorem downAux_stop {l : List Request} {i n : Nat} (h1 : 2 * i + 1 < n)
    {a b : Request} (ha : l[minChild l (2 * i + 1) n]? = some a)
    (hb : l[i]? = some b) (hless : a.less b = false) :
    downAux l i n = (l, i) := by
  unfold downAux
  rw [dif_pos h1]
  simp only [ha, hb, hless]
  rfl

theorem downAux_step {l : List Request} {i n : Nat} (h1 : 2 * i + 1 < n)
    {a b : Request} (ha : l[minChild l (2 * i + 1) n]? = some a)
    (hb : l[i]? = some b) (hless : a.less b = true) :
    downAux l i n = downAux (lswap l i (minChild l (2 * i + 1) n))
      (minChild l (2 * i + 1) n) n := by
  conv_lhs => unfold downAux
  rw [dif_pos h1]
  simp only [ha, hb, hless]
  rfl

theorem downAux_length (l : List Request) (i n : Nat) :
    (downAux l i n).1.length = l.length := by
  induction l, i, n using downAux.induct with
  | case1 l i n h1 j a b hb ha hless ih =>
    rw [downAux_step h1 ha hb hless]
    rw [show minChild l (2 * i + 1) n = j from rfl]
    rw [ih, lswap_length]
  | case2 l i n h1 j a b hb ha hless =>
    rw [downAux_stop h1 ha hb (by simpa using hless)]
  | case3 l i n h1 j hnone =>
    have : l[minChild l (2 * i + 1) n]? = none ∨ l[i]? = none := by
      cases ha : l[minChild l (2 * i + 1) n]? with
      | none => exact Or.inl rfl
      | some a =>
        cases hb : l[i]? with
        | none => exact Or.inr rfl
        | some b => exact absurd (hnone a b ha hb) (fun h => h)
    rw [downAux_none h1 this]
  | case4 l i n h1 =>
    rw [downAux_base h1]

theorem downAux_snd_ge (l : List Request) (i n : Nat) : i ≤ (downAux l i n).2 := by
  induction l, i, n using downAux.induct with
  | case1 l i n h1 j a b hb ha hless ih =>
    rw [downAux_step h1 ha hb hless]
    rw [show minChild l (2 * i + 1) n = j from rfl]
    have hji : i < j := by
      rcases minChild_cases l (2 * i + 1) n with h | ⟨h, h2⟩ <;>
        rw [show minChild l (2 * i + 1) n = j from rfl] at h <;> omega
    omega
  | case2 l i n h1 j a b hb ha hless =>
    rw [downAux_stop h1 ha hb (by simpa using hless)]
  | case3 l i n h1 j hnone =>
    have : l[minChild l (2 * i + 1) n]? = none ∨ l[i]? = none := by
      cases ha : l[minChild l (2 * i + 1) n]? with
      | none => exact Or.inl rfl
      | some a =>
        cases hb : l[i]? with
        | none => exact Or.inr rfl
        | some b => exact absurd (hnone a b ha hb) (fun h => h)
    rw [downAux_none h1 this]
  | case4 l i n h1 =>
    rw [downAux_base h1]

theorem downAux_perm (l : List Request) (i n : Nat) : (downAux l i n).1 ~ l := by
  induction l, i, n using downAux.induct with
  | case1 l i n h1 j a b hb ha hless ih =>
    rw [downAux_step h1 ha hb hless]
    rw [show minChild l (2 * i + 1) n = j from rfl]
    exact ih.trans (lswap_perm _ _ _)
  | case2 l i n h1 j a b hb ha hless =>
    rw [downAux_stop h1 ha hb (by simpa using hless)]
  | case3 l i n h1 j hnone =>
    have : l[minChild l (2 * i + 1) n]? = none ∨ l[i]? = none := by
      cases ha : l[minChild l (2 * i + 1) n]? with
      | none => exact Or.inl rfl
      | some a =>
        cases hb : l[i]? with
        | none => exact Or.inr rfl
        | some b => exact absurd (hnone a b ha hb) (fun h => h)
    rw [downAux_none h1 this]
  | case4 l i n h1 =>
    rw [downAux_base h1]

/-- `down` only rearranges entries at indices in `[i, n)`: anything below `i`
or at and beyond `n` is untouched. -/
theorem downAux_getElem?_untouched (l : List Request) (i n : Nat) (k : Nat)
    (hk : k < i ∨ n ≤ k) : (downAux l i n).1[k]? = l[k]? := by
  induction l, i, n using downAux.induct with
  | case1 l i n h1 j a b hb ha hless ih =>
    rw [downAux_step h1 ha hb hless]
    rw [show minChild l (2 * i + 1) n = j from rfl]
    have hj : minChild l (2 * i + 1) n = j := rfl
    have hjn : j < n := by
      rcases minChild_cases l (2 * i + 1) n with h | ⟨h, h2⟩ <;> rw [hj] at h <;> omega
    have hji : i < j := by
      rcases minChild_cases l (2 * i + 1) n with h | ⟨h, h2⟩ <;> rw [hj] at h <;> omega
    rw [ih (by omega)]
    have hjl : j < l.length := (List.getElem?_eq_some.mp ha).1
    have hil : i < l.length := (List.getElem?_eq_some.mp hb).1
    rw [lswap_getElem? l i j hil hjl k]
    simp only [if_neg (by omega : ¬k = j), if_neg (by omega : ¬k = i)]
  | case2 l i n h1 j a b hb ha hless =>
    rw [downAux_stop h1 ha hb (by simpa using hless)]
  | case3 l i n h1 j hnone =>
    have : l[minChild l (2 * i + 1) n]? = none ∨ l[i]? = none := by
      cases ha : l[minChild l (2 * i + 1) n]? with
      | none => exact Or.inl rfl
      | some a =>
        cases hb : l[i]? with
        | none => exact Or.inr rfl
        | some b => exact absurd (hnone a b ha hb) (fun h => h)
    rw [downAux_none h1 this]
  | case4 l i n h1 =>
    rw [downAux_base h1]

/-! ### The binary-heap invariant -/

/-- The entry at index `k` is not `less` than its parent at `(k-1)/2`. -/
def pairOK (l : List Request) (k : Nat) : Prop :=
  ∀ x y, l[k]? = some x → l[(k - 1) / 2]? = some y → x.less y = false

/-- The heap invariant on the prefix of length `n`: every non-root entry of
the prefix is at least its parent. -/
def heapInvN (l : List Request) (n : Nat) : Prop :=
  ∀ k, 0 < k → k < n → pairOK l k

/-- The heap invariant on the whole backing slice. -/
def heapInv (l : List Request) : Prop := heapInvN l l.length

/-- Grandchild condition used while sifting: the children of `j` are at least
`j`'s parent entry. -/
def gccN (l : List Request) (n j : Nat) : Prop :=
  0 < j → ∀ c, (c - 1) / 2 = j → 0 < c → c < n →
    ∀ x y, l[c]? = some x → l[(j - 1) / 2]? = some y → x.less y = false

/-- In a heap prefix the root is minimal: no entry is `less` than `l[0]`. -/
theorem heapInvN_root_min {l : List Request} {n : Nat} (hinv : heapInvN l n)
    (hn : n ≤ l.length) :
    ∀ k, k < n → ∀ x y, l[k]? = some x → l[0]? = some y → x.less y = false := by
  intro k
  induction k using Nat.strong_induction_on with
  | _ k ih =>
    intro hk x y hx hy
    rcases Nat.eq_zero_or_pos k with rfl | hk0
    · rw [hx] at hy
      cases hy
      exact Request.less_irrefl x
    · have hp : (k - 1) / 2 < k := by omega
      have hpl : (k - 1) / 2 < l.length := by omega
      obtain ⟨z, hz⟩ : ∃ z, l[(k - 1) / 2]? = some z :=
        ⟨_, List.getElem?_eq_getElem hpl⟩
      exact Request.not_less_trans (hinv k hk0 hk x z hx hz)
        (ih _ hp (by omega) z y hz hy)

theorem minChild_spec (l : List Request) (j1 n : Nat) (h2 : j1 + 1 < n)
    {c1 c2 : Request} (hc1 : l[j1]? = some c1) (hc2 : l[j1 + 1]? = some c2) :
    (minChild l j1 n = j1 ∧ c2.less c1 = false) ∨
    (minChild l j1 n = j1 + 1 ∧ c2.less c1 = true) := by
  unfold minChild
  rw [if_pos h2, hc2, hc1]
  cases hl : c2.less c1
  · left
    constructor
    · simp [hl]
    · rfl
  · right
    constructor
    · simp [hl]
    · rfl

/-- Correctness of `up`: if all parent-child pairs of the prefix are fine
except possibly the one at `j`, and `j`'s children are at least `j`'s parent,
then sifting `j` up restores the full heap invariant on the prefix. -/
theorem up_inv {n : Nat} {j : Nat} : ∀ {l : List Request}, n ≤ l.length → j < n →
    (∀ k, 0 < k → k < n → k ≠ j → pairOK l k) →
    gccN l n j →
    heapInvN (up l j) n := by
  induction j using Nat.strong_induction_on with
  | _ j ihj =>
    intro l hn hj h1 h2
    unfold up
    split
    · rename_i hj0
      subst hj0
      exact fun k hk0 hkn => h1 k hk0 hkn (by omega)
    · rename_i hj0
      split
      · rename_i p c hp hc
        split
        · rename_i hcp
          -- `c` at `j` is less than its parent `p` at `i`: swap and recurse.
          set i := (j - 1) / 2 with hidef
          have hij : i < j := by omega
          have hjl : j < l.length := by omega
          have hil : i < l.length := by omega
          have hget : ∀ k, (lswap l i j)[k]? =
              if k = j then some p else if k = i then some c else l[k]? := by
            intro k
            rw [lswap_getElem? l i j hil hjl k, hp, hc]
          refine ihj i hij (by rw [lswap_length]; exact hn) (by omega) ?_ ?_
          · -- all pairs of the swapped list are fine except possibly at `i`
            intro k hk0 hkn hki x y hx hy
            rw [hget] at hx hy
            rcases Decidable.em (k = j) with rfl | hkj
            · -- pair (j , i): now holds old parent over old child
              rw [if_pos rfl] at hx
              rw [← hidef] at hy
              rw [if_neg (by omega), if_pos rfl] at hy
              cases hx
              cases hy
              exact Request.less_asymm hcp
            · rw [if_neg hkj, if_neg (by omega)] at hx
              rcases Decidable.em ((k - 1) / 2 = j) with hpkj | hpkj
              · -- k is a child of j: grandchild condition of the original list
                rw [hpkj, if_pos rfl] at hy
                cases hy
                exact h2 (by omega) k hpkj (by omega) hkn x p hx hp
              · rcases Decidable.em ((k - 1) / 2 = i) with hpki | hpki
                · -- k is the other child of i
                  rw [hpki, if_neg (by omega), if_pos rfl] at hy
                  cases hy
                  exact Request.not_less_of_not_less_of_less
                    (h1 k hk0 hkn hkj x p hx (by rw [hpki]; exact hp)) hcp
                · rw [if_neg hpkj, if_neg hpki] at hy
                  exact h1 k hk0 hkn hkj x y hx hy
          · -- grandchild condition at `i` for the swapped list
            intro hi0 c' hpc' hc'0 hc'n x y hx hy
            have hc'i : i < c' := by omega
            have hc'j : c' = j ∨ c' ≠ j := by omega
            have hgp : (i - 1) / 2 ≠ j := by omega
            have hgpi : (i - 1) / 2 ≠ i := by omega
            rw [hget] at hx hy
            rw [if_neg hgp, if_neg hgpi] at hy
            rcases hc'j with rfl | hc'j
            · -- the child of `i` that is `j` now holds the old parent `p`
              rw [if_pos rfl] at hx
              cases hx
              exact h1 i hi0 (by omega) (by omega) p y hp hy
            · rw [if_neg hc'j, if_neg (by omega)] at hx
              refine Request.not_less_trans
                (h1 c' hc'0 hc'n hc'j x p hx (by rw [hpc']; exact hp)) ?_
              exact h1 i hi0 (by omega) (by omega) p y hp hy
        · rename_i hcp
          -- `c` is not less than its parent: the pair at `j` holds as well.
          intro k hk0 hkn x y hx hy
          rcases Decidable.em (k = j) with rfl | hkj
          · rw [hx] at hc
            cases hc
            rw [hy] at hp
            cases hp
            simpa using hcp
          · exact h1 k hk0 hkn hkj x y hx hy
      · rename_i hfail
        -- impossible: both indices are in range
        have hjl : j < l.length := by omega
        have hil : (j - 1) / 2 < l.length := by omega
        exact absurd (hfail l[(j - 1) / 2] l[j]
          (List.getElem?_eq_getElem hil) (List.getElem?_eq_getElem hjl)) (fun h => h)

/-- Correctness of `down`: starting from a prefix whose pairs are all fine
except possibly those involving position `i` (as parent or as child), with
`i`'s children at least `i`'s own parent, sifting down yields a prefix whose
pairs are all fine except possibly the final position's parent pair; that
parent pair is fine whenever the entry moved, and nothing changed when it did
not move. -/
theorem downAux_inv (l : List Request) (i n : Nat) :
    n ≤ l.length → i < n →
    (∀ k, 0 < k → k < n → k ≠ i → (k - 1) / 2 ≠ i → pairOK l k) →
    gccN l n i →
    ((∀ k, 0 < k → k < n → k ≠ (downAux l i n).2 → pairOK (downAux l i n).1 k) ∧
     gccN (downAux l i n).1 n (downAux l i n).2 ∧
     ((downAux l i n).2 ≠ i → pairOK (downAux l i n).1 (downAux l i n).2) ∧
     ((downAux l i n).2 = i → (downAux l i n).1 = l)) := by
  induction l, i, n using downAux.induct with
  | case1 l i n h1 j a b hb ha hless ih =>
    intro hn hi h01 h02
    rw [downAux_step h1 ha hb hless, show minChild l (2 * i + 1) n = j from rfl]
    have hjn : j < n := by
      rcases minChild_cases l (2 * i + 1) n with h | ⟨h, h2⟩ <;>
        rw [show minChild l (2 * i + 1) n = j from rfl] at h <;> omega
    have hij : i < j := by
      rcases minChild_cases l (2 * i + 1) n with h | ⟨h, h2⟩ <;>
        rw [show minChild l (2 * i + 1) n = j from rfl] at h <;> omega
    have hchild : (j - 1) / 2 = i := by
      rcases minChild_cases l (2 * i + 1) n with h | ⟨h, h2⟩ <;>
        rw [show minChild l (2 * i + 1) n = j from rfl] at h <;> omega
    have hjl : j < l.length := by omega
    have hil : i < l.length := by omega
    have hget : ∀ k, (lswap l i j)[k]? =
        if k = j then some b else if k = i then some a else l[k]? := by
      intro k
      rw [lswap_getElem? l i j hil hjl k, ha, hb]
    -- the other child of `i` (when in range) is not less than the chosen one
    have hother : ∀ k x, 0 < k → k < n → k ≠ j → (k - 1) / 2 = i →
        l[k]? = some x → x.less a = false := by
      intro k x hk0 hkn hkj hpk hx
      rcases (by omega : k = 2 * i + 1 ∨ k = 2 * i + 2) with rfl | rfl
      · have hj2 : j = 2 * i + 2 := by omega
        have ha2 : l[2 * i + 1 + 1]? = some a := by
          rw [show 2 * i + 1 + 1 = 2 * i + 2 from by omega, ← hj2]
          exact ha
        rcases minChild_spec l (2 * i + 1) n (by omega) hx ha2 with ⟨hmc, _⟩ | ⟨_, hlt⟩
        · rw [show minChild l (2 * i + 1) n = j from rfl] at hmc
          omega
        · exact Request.less_asymm hlt
      · have hj2 : j = 2 * i + 1 := by omega
        have ha1 : l[2 * i + 1]? = some a := by
          rw [← hj2]
          exact ha
        have hx2 : l[2 * i + 1 + 1]? = some x := by
          rw [show 2 * i + 1 + 1 = 2 * i + 2 from by omega]
          exact hx
        rcases minChild_spec l (2 * i + 1) n (by omega) ha1 hx2 with ⟨_, hnl⟩ | ⟨hmc, _⟩
        · exact hnl
        · rw [show minChild l (2 * i + 1) n = j from rfl] at hmc
          omega
    have hpre1 : ∀ k, 0 < k → k < n → k ≠ j → (k - 1) / 2 ≠ j →
        pairOK (lswap l i j) k := by
      intro k hk0 hkn hkj hpkj x y hx hy
      rw [hget] at hx hy
      rcases Decidable.em (k = i) with rfl | hki
      · -- pair (i, parent i): the swapped entry `a` against `i`'s old parent
        rw [if_neg (by omega), if_pos rfl] at hx
        cases hx
        rw [if_neg (by omega), if_neg (by omega)] at hy
        exact h02 hk0 j hchild (by omega) hjn a y ha hy
      · rcases Decidable.em ((k - 1) / 2 = i) with hpki | hpki
        · -- k is the other child of i; its entry is unchanged, its parent
          -- now holds the chosen child `a`
          rw [if_neg hkj, if_neg hki] at hx
          rw [hpki, if_neg (by omega), if_pos rfl] at hy
          cases hy
          exact hother k x hk0 hkn hkj hpki hx
        · rw [if_neg hkj, if_neg hki] at hx
          rw [if_neg hpkj, if_neg hpki] at hy
          exact h01 k hk0 hkn hki hpki x y hx hy
    have hpre2 : gccN (lswap l i j) n j := by
      intro hj0 c hpc hc0 hcn x y hx hy
      have hcj : j < c := by omega
      rw [hget] at hx hy
      rw [if_neg (by omega), if_neg (by omega)] at hx
      rw [hchild, if_neg (by omega), if_pos rfl] at hy
      cases hy
      exact h01 c hc0 hcn (by omega) (by omega) x a hx (by rw [hpc]; exact ha)
    obtain ⟨c1, c2, c3, c4⟩ := ih (by rw [lswap_length]; exact hn) hjn hpre1 hpre2
    refine ⟨c1, c2, ?_, ?_⟩
    · -- the final parent pair is fine whether or not the recursive sift moved
      intro _
      rcases Decidable.em ((downAux (lswap l i j) j n).2 = j) with heq | hne
      · -- recursion did not move: the list is the swapped one; pair (j, i)
        -- holds the old parent over the strictly smaller old child
        rw [heq, c4 heq]
        intro x y hx hy
        rw [hget] at hx hy
        rw [if_pos rfl] at hx
        cases hx
        rw [hchild, if_neg (by omega), if_pos rfl] at hy
        cases hy
        exact Request.less_asymm hless
      · exact c3 hne
    · -- the final position exceeds `i`, so "did not move" is impossible
      intro heq
      have := downAux_snd_ge (lswap l i j) j n
      omega
  | case2 l i n h1 j a b hb ha hless =>
    intro hn hi h01 h02
    have hless' : a.less b = false := by simpa using hless
    rw [downAux_stop h1 ha hb hless']
    have hjn : j < n := by
      rcases minChild_cases l (2 * i + 1) n with h | ⟨h, h2⟩ <;>
        rw [show minChild l (2 * i + 1) n = j from rfl] at h <;> omega
    have hij : i < j := by
      rcases minChild_cases l (2 * i + 1) n with h | ⟨h, h2⟩ <;>
        rw [show minChild l (2 * i + 1) n = j from rfl] at h <;> omega
    have hchild : (j - 1) / 2 = i := by
      rcases minChild_cases l (2 * i + 1) n with h | ⟨h, h2⟩ <;>
        rw [show minChild l (2 * i + 1) n = j from rfl] at h <;> omega
    have hother : ∀ k x, 0 < k → k < n → k ≠ j → (k - 1) / 2 = i →
        l[k]? = some x → x.less a = false := by
      intro k x hk0 hkn hkj hpk hx
      rcases (by omega : k = 2 * i + 1 ∨ k = 2 * i + 2) with rfl | rfl
      · have hj2 : j = 2 * i + 2 := by omega
        have ha2 : l[2 * i + 1 + 1]? = some a := by
          rw [show 2 * i + 1 + 1 = 2 * i + 2 from by omega, ← hj2]
          exact ha
        rcases minChild_spec l (2 * i + 1) n (by omega) hx ha2 with ⟨hmc, _⟩ | ⟨_, hlt⟩
        · rw [show minChild l (2 * i + 1) n = j from rfl] at hmc
          omega
        · exact Request.less_asymm hlt
      · have hj2 : j = 2 * i + 1 := by omega
        have ha1 : l[2 * i + 1]? = some a := by
          rw [← hj2]
          exact ha
        have hx2 : l[2 * i + 1 + 1]? = some x := by
          rw [show 2 * i + 1 + 1 = 2 * i + 2 from by omega]
          exact hx
        rcases minChild_spec l (2 * i + 1) n (by omega) ha1 hx2 with ⟨_, hnl⟩ | ⟨hmc, _⟩
        · exact hnl
        · rw [show minChild l (2 * i + 1) n = j from rfl] at hmc
          omega
    refine ⟨?_, h02, fun h => absurd rfl h, fun _ => rfl⟩
    intro k hk0 hkn hki x y hx hy
    rcases Decidable.em ((k - 1) / 2 = i) with hpki | hpki
    · -- k is a child of i: the chosen child is not less than `b = l[i]`,
      -- and the other child is not less than the chosen one
      rw [hpki] at hy
      rw [hy] at hb
      cases hb
      rcases Decidable.em (k = j) with rfl | hkj
      · rw [hx] at ha
        cases ha
        exact hless'
      · exact Request.not_less_trans (hother k x hk0 hkn hkj hpki hx) hless'
    · exact h01 k hk0 hkn hki hpki x y hx hy
  | case3 l i n h1 j hnone =>
    intro hn hi h01 h02
    have hjn : j < n := by
      rcases minChild_cases l (2 * i + 1) n with h | ⟨h, h2⟩ <;>
        rw [show minChild l (2 * i + 1) n = j from rfl] at h <;> omega
    have hjl : j < l.length := by omega
    have hil : i < l.length := by omega
    exact absurd (hnone l[j] l[i] (List.getElem?_eq_getElem hjl)
      (List.getElem?_eq_getElem hil)) (fun h => h)
  | case4 l i n h1 =>
    intro hn hi h01 h02
    rw [downAux_base h1]
    refine ⟨?_, h02, fun h => absurd rfl h, fun _ => rfl⟩
    intro k hk0 hkn hki x y hx hy
    rcases Decidable.em ((k - 1) / 2 = i) with hpki | hpki
    · -- children of i would be at index ≥ 2i+1 ≥ n: out of the prefix
      omega
    · exact h01 k hk0 hkn hki hpki x y hx hy

/-! ### The heap operations driven by `queue.go` -/

/-- `container/heap.Push` as used by `queue.enqueue`: `pQueue.Push` appends
the request, then `up` sifts the last entry. -/
def heapPush (l : List Request) (x : Request) : List Request :=
  up (l ++ [x]) l.length

/-- `pQueue.Pop` from `src/core/queue.go`: truncate the backing slice by one
(`*pq = (*pq)[0 : len(*pq)-1]`) and return `nil` (`none`).  On an empty slice
the Go code panics with a slice-bounds error, modelled by `none`. -/
def pQueuePop (l : List Request) : Option (List Request × Option Request) :=
  if l.isEmpty then none else some (l.take (l.length - 1), none)

/-- `container/heap.Pop` as used by the dispatcher: swap the root with the
last entry, sift the new root down within the shortened prefix, then the
`pQueue.Pop` truncation removes the old root parked at the end. -/
def heapPop (l : List Request) : List Request :=
  ((downAux (lswap l 0 (l.length - 1)) 0 (l.length - 1)).1).take (l.length - 1)

/-- `container/heap.Fix` as used by `queue.Set`: sift down, and if the entry
did not move, sift up. -/
def heapFix (l : List Request) (i : Nat) : List Request :=
  if (downN l i l.length).2 then (downN l i l.length).1
  else up (downN l i l.length).1 i

/-- `container/heap.Remove` as used by `queue.Remove`: unless removing the
last entry, swap it with the last entry and re-sift; then truncate. -/
def heapRemove (l : List Request) (i : Nat) : List Request :=
  if i = l.length - 1 then l.take (l.length - 1)
  else
    (if (downN (lswap l i (l.length - 1)) i (l.length - 1)).2 then
        (downN (lswap l i (l.length - 1)) i (l.length - 1)).1
      else up (downN (lswap l i (l.length - 1)) i (l.length - 1)).1 i).take
      (l.length - 1)

theorem heapPush_perm (l : List Request) (x : Request) : heapPush l x ~ x :: l :=
  (up_perm _ _).trans (List.perm_append_singleton x l)

theorem heapPush_length (l : List Request) (x : Request) :
    (heapPush l x).length = l.length + 1 := by
  unfold heapPush
  rw [up_length]
  simp

theorem heapPush_inv {l : List Request} (hinv : heapInv l) (x : Request) :
    heapInv (heapPush l x) := by
  unfold heapInv heapPush
  rw [up_length]
  apply up_inv (le_refl _) (by simp)
  · intro k hk0 hkn hkj x' y' hx' hy'
    rw [List.length_append, List.length_singleton] at hkn
    have hkl : k < l.length := by omega
    have hpl : (k - 1) / 2 < l.length := by omega
    rw [List.getElem?_append_left hkl] at hx'
    rw [List.getElem?_append_left hpl] at hy'
    exact hinv k hk0 hkl x' y' hx' hy'
  · intro h0 c hpc hc0 hcn
    rw [List.length_append, List.length_singleton] at hcn
    omega

theorem heapPop_length (l : List Request) : (heapPop l).length = l.length - 1 := by
  unfold heapPop
  rw [List.length_take, downAux_length, lswap_length]
  omega

/-- The old root is parked at the last index and everything else is a
permutation: popping removes exactly the root. -/
theorem heapPop_perm {l : List Request} {x : Request} (hx : l[0]? = some x) :
    l ~ x :: heapPop l := by
  have hl0 : 0 < l.length := by
    have := (List.getElem?_eq_some.mp hx).1
    omega
  set n := l.length - 1 with hn
  set l2 := (downAux (lswap l 0 n) 0 n).1 with hl2
  have hlen2 : l2.length = l.length := by
    rw [hl2, downAux_length, lswap_length]
  have hnl : n < l.length := by omega
  have hln : (lswap l 0 n)[n]? = some x := by
    rw [lswap_getElem? l 0 n hl0 hnl n, if_pos rfl, hx]
  have hl2n : l2[n]? = some x := by
    rw [hl2, downAux_getElem?_untouched _ _ _ n (Or.inr (le_refl n))]
    exact hln
  have hsplit : l2 = l2.take n ++ [x] := by
    have h1 : l2 = l2.take n ++ x :: l2.drop (n + 1) := eq_take_cons_drop hl2n
    have h2 : l2.drop (n + 1) = [] := by
      apply List.drop_eq_nil_of_le
      omega
    rw [h2] at h1
    exact h1
  have hperm : l ~ l2 := ((downAux_perm _ _ _).trans (lswap_perm _ _ _)).symm
  calc l ~ l2 := hperm
    _ = l2.take n ++ [x] := hsplit
    _ ~ x :: l2.take n := List.perm_append_singleton x _
    _ = x :: heapPop l := rfl

theorem heapPop_inv {l : List Request} (hinv : heapInv l) : heapInv (heapPop l) := by
  rcases Nat.lt_or_ge l.length 2 with hsmall | hbig
  · -- popping a heap of at most one entry empties the (model) prefix
    intro k hk0 hkn
    rw [heapPop_length] at hkn
    omega
  · set n := l.length - 1 with hn
    have hnl : n < l.length := by omega
    have hinv2 : heapInvN (downAux (lswap l 0 n) 0 n).1 n := by
      have hpre := downAux_inv (lswap l 0 n) 0 n
        (by rw [lswap_length]; omega) (by omega) ?_ ?_
      · obtain ⟨c1, _, c3, _⟩ := hpre
        intro k hk0 hkn
        rcases Decidable.em (k = (downAux (lswap l 0 n) 0 n).2) with rfl | hne
        · exact c3 (by omega)
        · exact c1 k hk0 hkn hne
      · intro k hk0 hkn hki hpk x y hx hy
        rw [lswap_getElem? l 0 n (by omega) hnl] at hx hy
        rw [if_neg (by omega), if_neg (by omega)] at hx
        rw [if_neg (by omega), if_neg (by omega)] at hy
        exact hinv k hk0 (by omega) x y hx hy
      · intro h0
        omega
    intro k hk0 hkn
    rw [heapPop_length] at hkn
    intro x y hx hy
    unfold heapPop at hx hy
    rw [List.getElem?_take_of_lt (by omega)] at hx
    rw [List.getElem?_take_of_lt (by omega)] at hy
    exact hinv2 k hk0 (by omega) x y hx hy

theorem heapPop_mem {l : List Request} {x : Request} (hx : x ∈ heapPop l) :
    x ∈ l := by
  have h1 : x ∈ (downAux (lswap l 0 (l.length - 1)) 0 (l.length - 1)).1 :=
    List.mem_of_mem_take hx
  exact ((downAux_perm _ _ _).trans (lswap_perm _ _ _)).mem_iff.mp h1

theorem heapFix_perm (l : List Request) (i : Nat) : heapFix l i ~ l := by
  unfold heapFix downN
  split
  · exact downAux_perm _ _ _
  · exact (up_perm _ _).trans (downAux_perm _ _ _)

/-- `Fix` restores the heap invariant when all pairs not involving `i` hold
and `i`'s children are at least `i`'s parent. -/
theorem heapFix_inv {l : List Request} {i : Nat} (hi : i < l.length)
    (h01 : ∀ k, 0 < k → k < l.length → k ≠ i → (k - 1) / 2 ≠ i → pairOK l k)
    (h02 : gccN l l.length i) : heapInv (heapFix l i) := by
  obtain ⟨c1, c2, c3, c4⟩ := downAux_inv l i l.length (le_refl _) hi h01 h02
  unfold heapFix downN
  split
  · rename_i hmoved
    simp only [decide_eq_true_eq] at hmoved
    intro k hk0 hkn
    rw [downAux_length] at hkn
    rcases Decidable.em (k = (downAux l i l.length).2) with rfl | hne
    · exact c3 (by omega)
    · exact c1 k hk0 hkn hne
  · rename_i hstay
    simp only [decide_eq_true_eq] at hstay
    have hsnd : (downAux l i l.length).2 = i := by
      have := downAux_snd_ge l i l.length
      omega
    have heq : (downAux l i l.length).1 = l := c4 hsnd
    rw [heq]
    intro k hk0 hkn
    rw [up_length] at hkn
    refine up_inv (le_refl _) hi ?_ ?_ k hk0 hkn
    · intro k' hk'0 hk'n hk'i
      rcases Decidable.em ((k' - 1) / 2 = i) with hpk | hpk
      · -- pairs (child of i, i) hold by the not-moved stop condition
        rw [← heq]
        exact c1 k' hk'0 hk'n (by rw [hsnd]; exact hk'i)
      · exact h01 k' hk'0 hk'n hk'i hpk
    · exact h02

theorem heapFix_length (l : List Request) (i : Nat) :
    (heapFix l i).length = l.length := by
  unfold heapFix downN
  split
  · rw [downAux_length]
  · rw [up_length, downAux_length]

theorem heapInv_take {l : List Request} {n : Nat} (h : heapInvN l n)
    (hn : n ≤ l.length) : heapInv (l.take n) := by
  intro k hk0 hkn
  rw [List.length_take] at hkn
  intro x y hx hy
  rw [List.getElem?_take_of_lt (by omega)] at hx
  rw [List.getElem?_take_of_lt (by omega)] at hy
  exact h k hk0 (by omega) x y hx hy

theorem heapRemove_mem {l : List Request} {i : Nat} {x : Request}
    (hx : x ∈ heapRemove l i) : x ∈ l := by
  unfold heapRemove at hx
  split at hx
  · exact List.mem_of_mem_take hx
  · have hx2 := List.mem_of_mem_take hx
    split at hx2
    · exact ((downAux_perm _ _ _).trans (lswap_perm _ _ _)).mem_iff.mp hx2
    · exact ((up_perm _ _).trans
        ((downAux_perm _ _ _).trans (lswap_perm _ _ _))).mem_iff.mp hx2

theorem heapRemove_length (l : List Request) (i : Nat) :
    (heapRemove l i).length = l.length - 1 := by
  unfold heapRemove
  split
  · rw [List.length_take]
    omega
  · rw [List.length_take]
    split
    · rw [downN, downAux_length, lswap_length]
      omega
    · rw [downN, up_length, downAux_length, lswap_length]
      omega

theorem heapRemove_inv {l : List Request} (hinv : heapInv l) {i : Nat}
    (hi : i < l.length) : heapInv (heapRemove l i) := by
  unfold heapRemove
  set n := l.length - 1 with hn
  split
  · exact heapInv_take (fun k hk0 hkn => hinv k hk0 (by omega)) (by omega)
  · rename_i hine
    have hin : i < n := by omega
    have hnl : n < l.length := by omega
    have hget1 : ∀ k, k < n → k ≠ i → (lswap l i n)[k]? = l[k]? := by
      intro k hk hki
      rw [lswap_getElem? l i n hi hnl k, if_neg (by omega), if_neg hki]
    have hpre1 : ∀ k, 0 < k → k < n → k ≠ i → (k - 1) / 2 ≠ i →
        pairOK (lswap l i n) k := by
      intro k hk0 hkn hki hpki x y hx hy
      rw [hget1 k hkn hki] at hx
      rw [hget1 _ (by omega) hpki] at hy
      exact hinv k hk0 (by omega) x y hx hy
    have hpre2 : gccN (lswap l i n) n i := by
      intro h0 c hpc hc0 hcn x y hx hy
      have hci : i < c := by omega
      rw [hget1 c hcn (by omega)] at hx
      rw [hget1 _ (by omega) (by omega)] at hy
      have hiv : l[i]? = some l[i] := List.getElem?_eq_getElem hi
      have h1 : x.less l[i] = false := by
        refine hinv c hc0 (by omega) x l[i] hx ?_
        rw [hpc]
        exact hiv
      have h2 : (l[i]).less y = false := hinv i h0 (by omega) l[i] y hiv hy
      exact Request.not_less_trans h1 h2
    obtain ⟨c1, c2, c3, c4⟩ := downAux_inv (lswap l i n) i n
      (by rw [lswap_length]; omega) hin hpre1 hpre2
    split
    · rename_i hmoved
      rw [downN] at hmoved
      simp only [decide_eq_true_eq] at hmoved
      refine heapInv_take ?_ (by rw [downN, downAux_length, lswap_length]; omega)
      intro k hk0 hkn
      rw [downN]
      rcases Decidable.em (k = (downAux (lswap l i n) i n).2) with rfl | hne
      · exact c3 (by omega)
      · exact c1 k hk0 hkn hne
    · rename_i hstay
      rw [downN] at hstay
      simp only [decide_eq_true_eq] at hstay
      have hsnd : (downAux (lswap l i n) i n).2 = i := by
        have := downAux_snd_ge (lswap l i n) i n
        omega
      have heq : (downAux (lswap l i n) i n).1 = lswap l i n := c4 hsnd
      rw [downN, heq]
      refine heapInv_take ?_ (by rw [up_length, lswap_length]; omega)
      refine up_inv (by rw [lswap_length]; omega) hin ?_ ?_
      · intro k hk0 hkn hki
        rw [← heq]
        exact c1 k hk0 hkn (by rw [hsnd]; exact hki)
      · have hc2 := c2
        rw [heq, hsnd] at hc2
        exact hc2

/-- Minimality of the heap root among all members. -/
theorem heapInv_head_min {l : List Request} (hinv : heapInv l) {x : Request}
    (hx : l[0]? = some x) : ∀ y ∈ l, y.less x = false := by
  intro y hy
  obtain ⟨k, hk⟩ := List.getElem?_of_mem hy
  have hkl : k < l.length := (List.getElem?_eq_some.mp hk).1
  exact heapInvN_root_min hinv (le_refl _) k hkl y x hk hx

/-- The pop loop of `queue.List`: while the copied slice is non-empty, read
`peek().file` and `heap.Pop`. -/
def popAllReqs (l : List Request) : List Request :=
  match hl : l[0]? with
  | some x => x :: popAllReqs (heapPop l)
  | none => []
termination_by l.length
decreasing_by
  rw [heapPop_length]
  have := (List.getElem?_eq_some.mp hl).1
  omega

theorem popAllReqs_perm (l : List Request) : popAllReqs l ~ l := by
  induction l using popAllReqs.induct with
  | case1 l x hl ih =>
    rw [popAllReqs, hl]
    exact (ih.cons x).trans (heapPop_perm hl).symm
  | case2 l hl =>
    rw [popAllReqs, hl]
    have : l = [] := by
      cases l with
      | nil => rfl
      | cons a tl => simp at hl
    rw [this]

/-- Popping a valid heap until empty yields an ascending sequence: no later
entry is `less` than an earlier one.  This is the ordering `queue.List`
returns. -/
theorem popAllReqs_sorted {l : List Request} (hinv : heapInv l) :
    List.Pairwise (fun a b => b.less a = false) (popAllReqs l) := by
  induction l using popAllReqs.induct with
  | case1 l x hl ih =>
    rw [popAllReqs, hl]
    refine List.Pairwise.cons ?_ (ih (heapPop_inv hinv))
    intro y hy
    have hyl : y ∈ l := by
      have := (popAllReqs_perm (heapPop l)).mem_iff.mp hy
      exact heapPop_mem this
    exact heapInv_head_min hinv hl y hyl
  | case2 l hl =>
    rw [popAllReqs, hl]
    exact List.Pairwise.nil

/-! ### The dispatcher (`queue.dispatch`) as a state machine

The dispatcher goroutine owns the heap.  Each loop iteration either delivers
the front file on `get` (a pop), hands the whole slice over on `getAll` (a
drain), or runs one job from the job inbox; when the heap is empty it only
accepts jobs, and once `finalized` is set and the heap is empty it closes
both output channels and exits.  A run is driven by a list of scheduler
events, one per loop iteration. -/

/-- State owned by one `queue`'s dispatcher: the backing slice, the pop
counter `order`, the `finalized` flag, whether each output channel has been
closed, and whether the goroutine has exited (returned or panicked). -/
structure DState where
  heap : List Request
  order : Nat
  finalized : Bool
  getClosed : Bool
  getAllClosed : Bool
  dead : Bool
deriving DecidableEq, Repr

/-- A queue as built by `newQueue`: empty heap, counter 0, all flags false. -/
def initQueue : DState := ⟨[], 0, false, false, false, false⟩

/-- The mutation jobs of `src/core/queue.go` submitted through `q.Job`:
`enqueue`, `enqueueAll`, `Set` (re-prioritise by file), `Remove` (unlink by
file ID), `Finalize`, and the read-only snapshot taken by `List`. -/
inductive DJob
  | enq (r : Request)
  | enqAll (rs : List Request)
  | setPrio (fid : Nat) (prio : Int)
  | remove (fid : Nat)
  | finalize
  | list
deriving DecidableEq, Repr

/-- Effect of one job closure on the dispatcher state. -/
def applyJob (s : DState) : DJob → DState
  | .enq r => { s with heap := heapPush s.heap r }
  | .enqAll rs => { s with heap := rs.foldl heapPush s.heap }
  | .setPrio fid prio =>
    match s.heap.findIdx? (fun r => r.fid == fid) with
    | some i =>
      match s.heap[i]? with
      | some r =>
        { s with heap := heapFix (s.heap.set i { r with prio := prio }) i }
      | none => s
    | none => s
  | .remove fid =>
    match s.heap.findIdx? (fun r => r.fid == fid) with
    | some i => { s with heap := heapRemove s.heap i }
    | none => s
  | .finalize => { s with finalized := true }
  | .list => s

/-- One iteration of the dispatcher's `select`, chosen by the scheduler. -/
inductive DEvent
  | get
  | drain
  | job (j : DJob)
deriving DecidableEq, Repr

/-- Observable output on the queue's two channels during a run.  A `pop`
records the delivered request together with the heap just before and just
after the pop; a `drain` records the slice handed over on `getAll`. -/
inductive QOut
  | pop (req : Request) (heapBefore heapAfter : List Request)
  | drain (reqs : List Request)
deriving DecidableEq, Repr

/-- The top of each dispatcher iteration:
`if q.peek().resolved() { q.peek().file.setPopOrder(order) }`. -/
def mark (r : Request) (o : Nat) : Request :=
  if r.resolved then { r with popOrder := (o : Int) } else r

/-- The dispatcher loop of `src/core/queue.go` lines 114-143, driven by a
list of scheduler events.  Sending on a closed channel panics, which kills
the goroutine (`dead`); closing happens only in the `finalized`-and-empty
branch. -/
def runD : List DEvent → DState → DState × List QOut
  | [], s =>
    if s.dead then (s, [])
    else
      match s.heap with
      | _ :: _ => (s, [])
      | [] =>
        if s.finalized then
          ({ s with getClosed := true, getAllClosed := true, dead := true }, [])
        else (s, [])
  | e :: rest, s =>
    if s.dead then (s, [])
    else
      match s.heap with
      | r0 :: tl =>
        let r1 := mark r0 s.order
        let s1 := { s with heap := r1 :: tl }
        match e with
        | .drain =>
          if s.getAllClosed then ({ s1 with dead := true }, [])
          else
            let step := runD rest { s1 with heap := [] }
            (step.1, .drain s1.heap :: step.2)
        | .get =>
          if s.getClosed then ({ s1 with dead := true }, [])
          else
            let step := runD rest
              { s1 with heap := heapPop (r1 :: tl), order := s.order + 1 }
            (step.1, .pop r1 (r1 :: tl) (heapPop (r1 :: tl)) :: step.2)
        | .job j => runD rest (applyJob s1 j)
      | [] =>
        if s.finalized then
          ({ s with getClosed := true, getAllClosed := true, dead := true }, [])
        else
          match e with
          | .job j => runD rest (applyJob s j)
          | .get => runD rest s
          | .drain => runD rest s

/-! Unfolding equations for `runD`, one per dispatcher branch.  They are
stated over explicit state components so each follows by computation. -/

theorem runD_dead (evts : List DEvent) (h : List Request) (o : Nat)
    (f gc gac : Bool) :
    runD evts ⟨h, o, f, gc, gac, true⟩ = (⟨h, o, f, gc, gac, true⟩, []) := by
  cases evts <;> rfl

theorem runD_close (evts : List DEvent) (o : Nat) (gc gac : Bool) :
    runD evts ⟨[], o, true, gc, gac, false⟩ = (⟨[], o, true, true, true, true⟩, []) := by
  cases evts <;> rfl

theorem runD_nil_nil (o : Nat) (gc gac : Bool) :
    runD [] ⟨[], o, false, gc, gac, false⟩ = (⟨[], o, false, gc, gac, false⟩, []) := rfl

theorem runD_nil_job (j : DJob) (rest : List DEvent) (o : Nat) (gc gac : Bool) :
    runD (.job j :: rest) ⟨[], o, false, gc, gac, false⟩ =
      runD rest (applyJob ⟨[], o, false, gc, gac, false⟩ j) := rfl

theorem runD_nil_get (rest : List DEvent) (o : Nat) (gc gac : Bool) :
    runD (.get :: rest) ⟨[], o, false, gc, gac, false⟩ =
      runD rest ⟨[], o, false, gc, gac, false⟩ := rfl

theorem runD_nil_drain (rest : List DEvent) (o : Nat) (gc gac : Bool) :
    runD (.drain :: rest) ⟨[], o, false, gc, gac, false⟩ =
      runD rest ⟨[], o, false, gc, gac, false⟩ := rfl

theorem runD_cons_nil (r0 : Request) (tl : List Request) (o : Nat)
    (f gc gac : Bool) :
    runD [] ⟨r0 :: tl, o, f, gc, gac, false⟩ =
      (⟨r0 :: tl, o, f, gc, gac, false⟩, []) := rfl

theorem runD_get_closed (r0 : Request) (tl : List Request) (rest : List DEvent)
    (o : Nat) (f gac : Bool) :
    runD (.get :: rest) ⟨r0 :: tl, o, f, true, gac, false⟩ =
      (⟨mark r0 o :: tl, o, f, true, gac, true⟩, []) := rfl

theorem runD_get_open (r0 : Request) (tl : List Request) (rest : List DEvent)
    (o : Nat) (f gac : Bool) :
    runD (.get :: rest) ⟨r0 :: tl, o, f, false, gac, false⟩ =
      ((runD rest ⟨heapPop (mark r0 o :: tl), o + 1, f, false, gac, false⟩).1,
        .pop (mark r0 o) (mark r0 o :: tl) (heapPop (mark r0 o :: tl)) ::
          (runD rest ⟨heapPop (mark r0 o :: tl), o + 1, f, false, gac, false⟩).2) := rfl

theorem runD_drain_closed (r0 : Request) (tl : List Request) (rest : List DEvent)
    (o : Nat) (f gc : Bool) :
    runD (.drain :: rest) ⟨r0 :: tl, o, f, gc, true, false⟩ =
      (⟨mark r0 o :: tl, o, f, gc, true, true⟩, []) := rfl

theorem runD_drain_open (r0 : Request) (tl : List Request) (rest : List DEvent)
    (o : Nat) (f gc : Bool) :
    runD (.drain :: rest) ⟨r0 :: tl, o, f, gc, false, false⟩ =
      ((runD rest ⟨[], o, f, gc, false, false⟩).1,
        .drain (mark r0 o :: tl) :: (runD rest ⟨[], o, f, gc, false, false⟩).2) := rfl

theorem runD_cons_job (r0 : Request) (tl : List Request) (j : DJob)
    (rest : List DEvent) (o : Nat) (f gc gac : Bool) :
    runD (.job j :: rest) ⟨r0 :: tl, o, f, gc, gac, false⟩ =
      runD rest (applyJob ⟨mark r0 o :: tl, o, f, gc, gac, false⟩ j) := rfl

/-! ### Invariants preserved by jobs and by the dispatcher loop -/

theorem mem_set_sub {l : List Request} {i : Nat} {x y : Request}
    (h : y ∈ l.set i x) : y = x ∨ y ∈ l := by
  obtain ⟨k, hk⟩ := List.getElem?_of_mem h
  rcases Decidable.em (k = i) with rfl | hki
  · rw [List.getElem?_set_self' ] at hk
    rcases Decidable.em (k < l.length) with hlt | hlt
    · rw [List.getElem?_eq_getElem hlt] at hk
      simp at hk
      exact Or.inl hk.symm
    · rw [List.getElem?_eq_none (by omega)] at hk
      simp at hk
  · rw [List.getElem?_set_ne (Ne.symm hki)] at hk
    exact Or.inr (List.getElem?_mem hk)

/-- Every request in the heap is resolved (true of the resolved queue by
construction: the resolver only enqueues resolved requests there). -/
def heapResolved (l : List Request) : Prop := ∀ r ∈ l, r.resolved = true

/-- The requests an event pushes into the queue are all resolved. -/
def evtPushesResolved : DEvent → Bool
  | .job (.enq r) => r.resolved
  | .job (.enqAll rs) => rs.all (·.resolved)
  | _ => true

theorem applyJob_order (s : DState) (j : DJob) : (applyJob s j).order = s.order := by
  cases j <;> simp only [applyJob] <;> (repeat' split) <;> rfl

theorem applyJob_finalized (s : DState) (j : DJob) :
    (applyJob s j).finalized = s.finalized ∨ j = .finalize := by
  cases j <;> simp only [applyJob] <;> (repeat' split) <;> simp

theorem applyJob_getClosed (s : DState) (j : DJob) :
    (applyJob s j).getClosed = s.getClosed := by
  cases j <;> simp only [applyJob] <;> (repeat' split) <;> rfl

theorem applyJob_getAllClosed (s : DState) (j : DJob) :
    (applyJob s j).getAllClosed = s.getAllClosed := by
  cases j <;> simp only [applyJob] <;> (repeat' split) <;> rfl

theorem applyJob_dead (s : DState) (j : DJob) : (applyJob s j).dead = s.dead := by
  cases j <;> simp only [applyJob] <;> (repeat' split) <;> rfl

theorem foldl_heapPush_inv (rs : List Request) :
    ∀ {l : List Request}, heapInv l → heapInv (rs.foldl heapPush l) := by
  induction rs with
  | nil => exact fun h => h
  | cons r rs ih => exact fun h => ih (heapPush_inv h r)

/-- Re-prioritising an entry and `heap.Fix`ing it preserves the invariant. -/
theorem heapSet_inv {l : List Request} (hinv : heapInv l) {i : Nat}
    (hi : i < l.length) (r' : Request) : heapInv (heapFix (l.set i r') i) := by
  have hlen : (l.set i r').length = l.length := List.length_set l i r'
  refine heapFix_inv (by omega) ?_ ?_
  · intro k hk0 hkn hki hpki x y hx hy
    rw [List.getElem?_set_ne (Ne.symm hki)] at hx
    rw [List.getElem?_set_ne (Ne.symm hpki)] at hy
    rw [hlen] at hkn
    exact hinv k hk0 hkn x y hx hy
  · intro h0 c hpc hc0 hcn x y hx hy
    rw [hlen] at hcn
    have hci : i < c := by omega
    rw [List.getElem?_set_ne (by omega)] at hx
    rw [List.getElem?_set_ne (by omega)] at hy
    have hiv : l[i]? = some l[i] := List.getElem?_eq_getElem hi
    have h1 : x.less l[i] = false := by
      refine hinv c hc0 (by omega) x l[i] hx ?_
      rw [hpc]
      exact hiv
    have h2 : (l[i]).less y = false := hinv i h0 (by omega) l[i] y hiv hy
    exact Request.not_less_trans h1 h2

/-- Every job closure preserves the heap invariant. -/
theorem applyJob_inv (s : DState) (hinv : heapInv s.heap) (j : DJob) :
    heapInv (applyJob s j).heap := by
  cases j with
  | enq r => exact heapPush_inv hinv r
  | enqAll rs => exact foldl_heapPush_inv rs hinv
  | setPrio fid prio =>
    simp only [applyJob]
    split
    · rename_i i hfind
      split
      · rename_i r hr
        exact heapSet_inv hinv (List.getElem?_eq_some.mp hr).1 _
      · exact hinv
    · exact hinv
  | remove fid =>
    simp only [applyJob]
    split
    · rename_i i hfind
      have hi : i < s.heap.length :=
        (List.findIdx?_eq_some_iff_findIdx_eq.mp hfind).1
      exact heapRemove_inv hinv hi
    · exact hinv
  | finalize => exact hinv
  | list => exact hinv

theorem foldl_heapPush_resolved (rs : List Request) :
    ∀ {l : List Request}, heapResolved l → (∀ r ∈ rs, r.resolved = true) →
      heapResolved (rs.foldl heapPush l) := by
  induction rs with
  | nil => exact fun h _ => h
  | cons r rs ih =>
    intro l hl hrs
    refine ih ?_ (fun x hx => hrs x (List.mem_cons_of_mem r hx))
    intro y hy
    rcases List.mem_cons.mp ((heapPush_perm l r).mem_iff.mp hy) with rfl | hyl
    · exact hrs y (List.mem_cons_self y rs)
    · exact hl y hyl

/-- Every job closure keeps every heap entry resolved, provided the pushed
requests are resolved. -/
theorem applyJob_resolved (s : DState) (hres : heapResolved s.heap) {j : DJob}
    (hj : evtPushesResolved (.job j) = true) : heapResolved (applyJob s j).heap := by
  cases j with
  | enq r =>
    intro y hy
    rcases List.mem_cons.mp ((heapPush_perm s.heap r).mem_iff.mp hy) with rfl | hyl
    · exact hj
    · exact hres y hyl
  | enqAll rs => exact foldl_heapPush_resolved rs hres (List.all_eq_true.mp hj)
  | setPrio fid prio =>
    simp only [applyJob]
    split
    · rename_i i hfind
      split
      · rename_i r hr
        intro y hy
        have hy2 := (heapFix_perm _ _).mem_iff.mp hy
        rcases mem_set_sub hy2 with rfl | hyl
        · exact hres r (List.getElem?_mem hr)
        · exact hres y hyl
      · exact hres
    · exact hres
  | remove fid =>
    simp only [applyJob]
    split
    · exact fun y hy => hres y (heapRemove_mem hy)
    · exact hres
  | finalize => exact hres
  | list => exact hres

theorem mark_resolved (r : Request) (o : Nat) : (mark r o).resolved = r.resolved := by
  unfold mark
  split <;> rfl

theorem less_mark_right (x r : Request) (o : Nat) : x.less (mark r o) = x.less r := by
  unfold mark
  split <;> rfl

theorem mark_less_left (x r : Request) (o : Nat) : (mark r o).less x = r.less x := by
  unfold mark
  split <;> rfl

/-- Setting the front file's pop order does not disturb the heap invariant. -/
theorem heapInv_mark_cons {r : Request} {tl : List Request}
    (hinv : heapInv (r :: tl)) (o : Nat) : heapInv (mark r o :: tl) := by
  intro k hk0 hkn x y hx hy
  rw [List.length_cons] at hkn
  cases k with
  | zero => omega
  | succ m =>
    rw [List.getElem?_cons_succ] at hx
    rcases Nat.eq_zero_or_pos ((m + 1 - 1) / 2) with hp0 | hppos
    · rw [hp0, List.getElem?_cons_zero] at hy
      cases hy
      rw [less_mark_right]
      refine hinv (m + 1) hk0 (by simpa using hkn) x r ?_ ?_
      · rw [List.getElem?_cons_succ]
        exact hx
      · rw [hp0]
        exact List.getElem?_cons_zero
    · obtain ⟨p, hp⟩ : ∃ p, (m + 1 - 1) / 2 = p + 1 := ⟨_, (Nat.succ_pred_eq_of_pos hppos).symm⟩
      rw [hp, List.getElem?_cons_succ] at hy
      refine hinv (m + 1) hk0 (by simpa using hkn) x y ?_ ?_
      · rw [List.getElem?_cons_succ]
        exact hx
      · rw [hp, List.getElem?_cons_succ]
        exact hy

theorem heapResolved_mark_cons {r : Request} {tl : List Request}
    (hres : heapResolved (r :: tl)) (o : Nat) : heapResolved (mark r o :: tl) := by
  intro y hy
  rcases List.mem_cons.mp hy with rfl | hyl
  · rw [mark_resolved]
    exact hres r (List.mem_cons_self r tl)
  · exact hres y (List.mem_cons_of_mem r hyl)

/-- The requests delivered on the `get` channel during a run, in order. -/
def popReqs (outs : List QOut) : List Request :=
  outs.filterMap fun o =>
    match o with
    | .pop r _ _ => some r
    | .drain _ => none

theorem popReqs_cons_pop (r : Request) (hb ha : List Request) (outs : List QOut) :
    popReqs (.pop r hb ha :: outs) = r :: popReqs outs := rfl

theorem popReqs_cons_drain (reqs : List Request) (outs : List QOut) :
    popReqs (.drain reqs :: outs) = popReqs outs := rfl

theorem heapInv_nil : heapInv ([] : List Request) := by
  intro k hk0 hkn
  simp at hkn

theorem heapResolved_nil : heapResolved ([] : List Request) := by
  intro r hr
  simp at hr

/-- Sequencing invariant: starting from a heap of resolved requests, with pop
counter `c`, the `popOrder` values of delivered requests read
`c, c+1, c+2, …` whatever jobs and drains are interleaved. -/
theorem runD_seqnums (evts : List DEvent) : ∀ (s : DState),
    (∀ e ∈ evts, evtPushesResolved e = true) → heapResolved s.heap →
    List.map Request.popOrder (popReqs (runD evts s).2) =
      List.map Int.ofNat
        (List.range' s.order (popReqs (runD evts s).2).length) := by
  induction evts with
  | nil =>
    intro s hevt hres
    obtain ⟨h, o, f, gc, gac, d⟩ := s
    cases d
    · cases h with
      | nil =>
        cases f
        · rw [runD_nil_nil]
          rfl
        · rw [runD_close]
          rfl
      | cons r0 tl =>
        rw [runD_cons_nil]
        rfl
    · rw [runD_dead]
      rfl
  | cons e rest ih =>
    intro s hevt hres
    have hevt' : ∀ e' ∈ rest, evtPushesResolved e' = true :=
      fun e' he' => hevt e' (List.mem_cons_of_mem e he')
    obtain ⟨h, o, f, gc, gac, d⟩ := s
    cases d
    · cases h with
      | nil =>
        cases f
        · cases e with
          | get =>
            rw [runD_nil_get]
            exact ih _ hevt' hres
          | drain =>
            rw [runD_nil_drain]
            exact ih _ hevt' hres
          | job j =>
            rw [runD_nil_job]
            have hres' := applyJob_resolved ⟨[], o, false, gc, gac, false⟩ hres
              (hevt (.job j) (List.mem_cons_self _ _))
            have horder := applyJob_order ⟨[], o, false, gc, gac, false⟩ j
            rw [← horder]
            exact ih _ hevt' hres'
        · rw [runD_close]
          rfl
      | cons r0 tl =>
        have hr0 : r0.resolved = true := hres r0 (List.mem_cons_self r0 tl)
        have hresm : heapResolved (mark r0 o :: tl) := heapResolved_mark_cons hres o
        cases e with
        | get =>
          cases gc
          · rw [runD_get_open]
            have hrespop : heapResolved (heapPop (mark r0 o :: tl)) :=
              fun y hy => hresm y (heapPop_mem hy)
            have hrec := ih ⟨heapPop (mark r0 o :: tl), o + 1, f, false, gac, false⟩
              hevt' hrespop
            have hmark : (mark r0 o).popOrder = Int.ofNat o := by
              unfold mark
              rw [if_pos hr0]
              rfl
            rw [popReqs_cons_pop, List.map_cons, List.length_cons, List.range'_succ,
              List.map_cons, hmark, hrec]
          · rw [runD_get_closed]
            rfl
        | drain =>
          cases gac
          · rw [runD_drain_open]
            have hrec := ih ⟨[], o, f, gc, false, false⟩ hevt' heapResolved_nil
            rw [popReqs_cons_drain]
            exact hrec
          · rw [runD_drain_closed]
            rfl
        | job j =>
          rw [runD_cons_job]
          have hres' := applyJob_resolved ⟨mark r0 o :: tl, o, f, gc, gac, false⟩ hresm
            (hevt (.job j) (List.mem_cons_self _ _))
          have horder := applyJob_order ⟨mark r0 o :: tl, o, f, gc, gac, false⟩ j
          rw [← horder]
          exact ih _ hevt' hres'
    · rw [runD_dead]
      rfl

/-- Pop records: every request delivered on `get` is the front of the heap at
that moment, is minimal with respect to `less` among everything then queued,
and is exactly the entry that the subsequent `heap.Pop` removes. -/
theorem runD_pops (evts : List DEvent) : ∀ (s : DState), heapInv s.heap →
    ∀ req hb ha, QOut.pop req hb ha ∈ (runD evts s).2 →
      hb[0]? = some req ∧ (∀ y ∈ hb, y.less req = false) ∧
        hb ~ req :: ha ∧ ha = heapPop hb := by
  induction evts with
  | nil =>
    intro s hinv req hb ha hmem
    obtain ⟨h, o, f, gc, gac, d⟩ := s
    cases d
    · cases h with
      | nil =>
        cases f
        · rw [runD_nil_nil] at hmem
          simp at hmem
        · rw [runD_close] at hmem
          simp at hmem
      | cons r0 tl =>
        rw [runD_cons_nil] at hmem
        simp at hmem
    · rw [runD_dead] at hmem
      simp at hmem
  | cons e rest ih =>
    intro s hinv req hb ha hmem
    obtain ⟨h, o, f, gc, gac, d⟩ := s
    cases d
    · cases h with
      | nil =>
        cases f
        · cases e with
          | get =>
            rw [runD_nil_get] at hmem
            exact ih _ hinv req hb ha hmem
          | drain =>
            rw [runD_nil_drain] at hmem
            exact ih _ hinv req hb ha hmem
          | job j =>
            rw [runD_nil_job] at hmem
            exact ih _ (applyJob_inv _ hinv j) req hb ha hmem
        · rw [runD_close] at hmem
          simp at hmem
      | cons r0 tl =>
        have hinvm : heapInv (mark r0 o :: tl) := heapInv_mark_cons hinv o
        cases e with
        | get =>
          cases gc
          · rw [runD_get_open] at hmem
            rcases List.mem_cons.mp hmem with heq | hmem'
            · injection heq with h1 h2 h3
              subst h1
              subst h2
              subst h3
              have hx : (mark r0 o :: tl)[0]? = some (mark r0 o) :=
                List.getElem?_cons_zero
              exact ⟨hx, heapInv_head_min hinvm hx, heapPop_perm hx, rfl⟩
            · exact ih _ (heapPop_inv hinvm) req hb ha hmem'
          · rw [runD_get_closed] at hmem
            simp at hmem
        | drain =>
          cases gac
          · rw [runD_drain_open] at hmem
            rcases List.mem_cons.mp hmem with heq | hmem'
            · simp at heq
            · exact ih _ heapInv_nil req hb ha hmem'
          · rw [runD_drain_closed] at hmem
            simp at hmem
        | job j =>
          rw [runD_cons_job] at hmem
          exact ih _ (applyJob_inv _ hinvm j) req hb ha hmem
    · rw [runD_dead] at hmem
      simp at hmem

/-- Safety half of finalize-close: if the run starts with both channels open,
then whenever a channel ends up closed the dispatcher's own close branch did
it, so the final state is finalized with an empty heap and both channels
closed. -/
theorem runD_close_safety (evts : List DEvent) : ∀ (s : DState),
    s.getClosed = false → s.getAllClosed = false →
    ((runD evts s).1.getClosed = true ∨ (runD evts s).1.getAllClosed = true) →
      (runD evts s).1.finalized = true ∧ (runD evts s).1.heap = [] ∧
        (runD evts s).1.getClosed = true ∧ (runD evts s).1.getAllClosed = true := by
  induction evts with
  | nil =>
    intro s hgc hgac hcl
    obtain ⟨h, o, f, gc, gac, d⟩ := s
    cases hgc
    cases hgac
    cases d
    · cases h with
      | nil =>
        cases f
        · rw [runD_nil_nil] at hcl ⊢
          simp at hcl
        · rw [runD_close] at hcl ⊢
          exact ⟨rfl, rfl, rfl, rfl⟩
      | cons r0 tl =>
        rw [runD_cons_nil] at hcl ⊢
        simp at hcl
    · rw [runD_dead] at hcl ⊢
      simp at hcl
  | cons e rest ih =>
    intro s hgc hgac hcl
    obtain ⟨h, o, f, gc, gac, d⟩ := s
    cases hgc
    cases hgac
    cases d
    · cases h with
      | nil =>
        cases f
        · cases e with
          | get =>
            rw [runD_nil_get] at hcl ⊢
            exact ih _ rfl rfl hcl
          | drain =>
            rw [runD_nil_drain] at hcl ⊢
            exact ih _ rfl rfl hcl
          | job j =>
            rw [runD_nil_job] at hcl ⊢
            refine ih _ ?_ ?_ hcl
            · rw [applyJob_getClosed]
            · rw [applyJob_getAllClosed]
        · rw [runD_close] at hcl ⊢
          exact ⟨rfl, rfl, rfl, rfl⟩
      | cons r0 tl =>
        cases e with
        | get =>
          rw [runD_get_open] at hcl ⊢
          exact ih _ rfl rfl hcl
        | drain =>
          rw [runD_drain_open] at hcl ⊢
          exact ih _ rfl rfl hcl
        | job j =>
          rw [runD_cons_job] at hcl ⊢
          refine ih _ ?_ ?_ hcl
          · rw [applyJob_getClosed]
          · rw [applyJob_getAllClosed]
    · rw [runD_dead] at hcl ⊢
      simp at hcl

/-- After both output channels are closed (as `Client.Stop` does), a
dispatcher run delivers nothing: any attempted send panics first. -/
theorem runD_closed_no_output (evts : List DEvent) : ∀ (s : DState),
    s.getClosed = true → s.getAllClosed = true → (runD evts s).2 = [] := by
  induction evts with
  | nil =>
    intro s hgc hgac
    obtain ⟨h, o, f, gc, gac, d⟩ := s
    cases hgc
    cases hgac
    cases d
    · cases h with
      | nil =>
        cases f
        · rw [runD_nil_nil]
        · rw [runD_close]
      | cons r0 tl =>
        rw [runD_cons_nil]
    · rw [runD_dead]
  | cons e rest ih =>
    intro s hgc hgac
    obtain ⟨h, o, f, gc, gac, d⟩ := s
    cases hgc
    cases hgac
    cases d
    · cases h with
      | nil =>
        cases f
        · cases e with
          | get =>
            rw [runD_nil_get]
            exact ih _ rfl rfl
          | drain =>
            rw [runD_nil_drain]
            exact ih _ rfl rfl
          | job j =>
            rw [runD_nil_job]
            refine ih _ ?_ ?_
            · rw [applyJob_getClosed]
            · rw [applyJob_getAllClosed]
        · rw [runD_close]
      | cons r0 tl =>
        cases e with
        | get => rw [runD_get_closed]
        | drain => rw [runD_drain_closed]
        | job j =>
          rw [runD_cons_job]
          refine ih _ ?_ ?_
          · rw [applyJob_getClosed]
          · rw [applyJob_getAllClosed]
    · rw [runD_dead]

/-! ### `queue.List` (src/core/queue.go lines 29-43)

Under a serialized job the backing slice is copied; the copy is then popped
to exhaustion (peek + `heap.Pop`), collecting each entry's file in pop
order.  Only the copy is mutated. -/

/-- `queue.List` on the dispatcher state: the returned entries (whose
`.file` fields the Go code collects) and the state afterwards. -/
def queueList (s : DState) : List Request × DState :=
  (popAllReqs s.heap, s)

/-! ### The `Client` facade (`src/unnamed/part_000`) -/

/-- `sync.WaitGroup` counter. -/
structure WaitGroup where
  counter : Int
deriving DecidableEq, Repr

def WaitGroup.add (wg : WaitGroup) (n : Int) : WaitGroup := ⟨wg.counter + n⟩

def WaitGroup.doneWG (wg : WaitGroup) : WaitGroup := ⟨wg.counter - 1⟩

/-- Modelled from the spec: `rootRequest(u, wg, i)` lives in a source file
absent from `src/`.  Per the spec a root request carries the submitted URL
as both original and current URL, the default priority 0, insertion order
`i`, no provider/file binding yet (unresolved), and shares the caller's wait
group (the wait group and parent/root links are not represented in
`Request`). -/
def rootRequest (u : String) (i : Nat) : Request :=
  { prio := 0, ord := i, resolved := false, url := u, popOrder := -1, fid := 0 }

/-- The enqueue-batch goroutine spawned by `AddURLs`: it builds one root
request per URL, submits them to the resolver queue as a single
`enqueueAll` job (without waiting for the job to run), and then the
deferred `wg.Done()` decrements the counter once. -/
def addURLsTask (urls : List String) (wg : WaitGroup) : DJob × WaitGroup :=
  (.enqAll ((urls.enum).map fun p => rootRequest p.2 p.1), wg.doneWG)

/-- `Client.AddURLs` (src/unnamed/part_000 lines 59-71): a fresh wait group
is `Add`ed `len(urls) + 1`, the enqueue-batch task is spawned, and the wait
group is returned at once. -/
def addURLs (urls : List String) : WaitGroup × (DJob × WaitGroup) :=
  let wg := WaitGroup.add ⟨0⟩ (urls.length + 1)
  (wg, addURLsTask urls wg)

/-- The two queues owned by a `Client`. -/
structure ClientState where
  resolverQueue : DState
  ResolvedQueue : DState
deriving DecidableEq, Repr

/-- `NewClient`/`NewClientWith`: two fresh queues. -/
def newClient : ClientState := ⟨initQueue, initQueue⟩

/-- `Client.Stop` (src/unnamed/part_000 lines 120-125): immediately close
`get` and `getAll` of both queues; the heaps are not drained or touched. -/
def clientStop (c : ClientState) : ClientState :=
  ⟨{ c.resolverQueue with getClosed := true, getAllClosed := true },
   { c.ResolvedQueue with getClosed := true, getAllClosed := true }⟩

/-! ### The `File` variants (`src/core/file.go`) -/

/-- Modelled from the spec: the `api.File` metadata interface implemented by
providers (the `core/api` package is outside `src/`): URL string, display
name, size (−1 meaning unknown), provider name, and optional checksum
`(digest bytes, algorithm name)`. -/
structure ApiFile where
  url : String
  name : String
  size : Int
  provName : String
  checksum : Option (List Nat × String)
deriving DecidableEq, Repr

/-- `api.FileSizeUnknown`, the −1 sentinel. -/
def FileSizeUnknown : Int := -1

/-- Result of a Go method call: a normal value or a runtime panic. -/
inductive Res (α : Type)
  | ok (a : α)
  | panic (msg : String)
deriving DecidableEq, Repr

/-- The embedded `file` struct: the embedded `api.File` interface value
(nil for offline/errored files), the original URL, and the mutable pop
order initialised to −1. -/
structure FileCore where
  apiF : Option ApiFile
  original : String
  popOrder : Int
deriving DecidableEq, Repr

/-- The three `File` variants.  `onlineFile` also carries a done-callback,
an external effect not represented in the data. -/
inductive GoFile
  | online (core : FileCore)
  | offline (core : FileCore) (u : String)
  | errored (core : FileCore) (u : String) (err : Option String)
deriving DecidableEq, Repr

/-- Constructor `online(f, orig, done)`: embedded `api.File` is `f`. -/
def mkOnline (af : ApiFile) (orig : String) : GoFile := .online ⟨some af, orig, -1⟩

/-- Constructor `offline(orig, curr)`: the embedded `api.File` is nil. -/
def mkOffline (orig curr : String) : GoFile := .offline ⟨none, orig, -1⟩ curr

/-- Constructor `errored(orig, curr, err)`: the embedded `api.File` is nil. -/
def mkErrored (orig curr : String) (err : Option String) : GoFile :=
  .errored ⟨none, orig, -1⟩ curr err

/-- The embedded `file` struct of a variant. -/
def GoFile.core : GoFile → FileCore
  | .online c => c
  | .offline c _ => c
  | .errored c _ _ => c

/-- `URL()` as promoted from the embedded `api.File`: calling a method on a
nil interface value is a runtime panic. -/
def FileCore.fileURL (c : FileCore) : Res String :=
  match c.apiF with
  | some af => .ok af.url
  | none => .panic "invalid memory address or nil pointer dereference"

/-- The `URL()` a caller observes: `offlineFile` and `erroredFile` override
it to return their own `u`; `onlineFile` uses the promoted one. -/
def GoFile.url : GoFile → Res String
  | .online c => c.fileURL
  | .offline _ u => .ok u
  | .errored _ u _ => .ok u

/-- `file.ID()`:
`fmt.Sprintf("%x", sha256.Sum256([]byte(f.URL().String())))`, promoted from
the embedded `file` struct.  Inside `file.ID` the receiver is the embedded
`file`, so `f.URL()` is the promotion of the embedded `api.File`'s `URL` —
NOT the variant's override — and panics when that interface is nil
(offline/errored files).  `sha256hex` abstracts the standard library
`crypto/sha256` digest with `%x` (lowercase hex) formatting. -/
def GoFile.id (sha256hex : String → String) (f : GoFile) : Res String :=
  match f.core.apiF with
  | some af => .ok (sha256hex af.url)
  | none => .panic "invalid memory address or nil pointer dereference"

/-- `Err()` per variant. -/
def GoFile.errM : GoFile → Res (Option String)
  | .online _ => .ok none
  | .offline _ _ => .ok none
  | .errored _ _ e => .ok e

/-- `Offline()` per variant. -/
def GoFile.offlineM : GoFile → Res Bool
  | .online _ => .ok false
  | .offline _ _ => .ok true
  | .errored _ _ _ => .panic "Offline() on errored file"

/-- `LengthUnknown()` per variant; for online files it is
`f.Size() == api.FileSizeUnknown` with `Size` promoted from `api.File`. -/
def GoFile.lengthUnknown : GoFile → Res Bool
  | .online c =>
    match c.apiF with
    | some af => .ok (af.size == FileSizeUnknown)
    | none => .panic "invalid memory address or nil pointer dereference"
  | .offline _ _ => .panic "LengthUnknown() on offline file"
  | .errored _ _ _ => .panic "LengthUnknown() on errored file"

/-- `done()` per variant; the online callback returns normally. -/
def GoFile.done : GoFile → Res Unit
  | .online _ => .ok ()
  | .offline _ _ => .panic "done() on offline file"
  | .errored _ _ _ => .panic "done() on errored file"

/-- JSON values produced by `MarshalJSON`. -/
inductive JVal
  | str (s : String)
  | int (n : Int)
  | obj (kvs : List (String × JVal))

/-- `strings.ToLower` (ASCII algorithm names): lowercase each character. -/
def strToLower (s : String) : String := ⟨s.data.map Char.toLower⟩

/-- One lowercase hex digit. -/
def hexDigit (n : Nat) : Char :=
  if n < 10 then Char.ofNat (48 + n) else Char.ofNat (87 + n)

/-- Lowercase hex of a byte sequence, as `fmt.Sprintf("%x", bytes)`. -/
def hexOfBytes (bs : List Nat) : String :=
  ⟨(bs.map fun b => [hexDigit (b / 16 % 16), hexDigit (b % 16)]).flatten⟩

/-- `file.MarshalJSON` (src/core/file.go lines 83-95) as the key-value
pairs it marshals (Go then serialises the map; only the key set matters).
Building the map evaluates `f.ID()`, which panics when the embedded
`api.File` is nil (offline/errored files); `Provider`, `Name`, `URL`,
`Size`, `Checksum` are likewise the embedded interface's methods.  The
checksum entry appears iff `cks != nil`, with the algorithm lowercased and
the digest in lowercase hex. -/
def GoFile.marshalJSON (sha256hex : String → String) (f : GoFile) :
    Res (List (String × JVal)) :=
  match f.core.apiF with
  | none => .panic "invalid memory address or nil pointer dereference"
  | some af =>
    .ok ([("id", .str (sha256hex af.url)),
          ("provider", .str af.provName),
          ("name", .str af.name),
          ("url", .str af.url),
          ("size", .int af.size)] ++
      match af.checksum with
      | some (cks, algo) =>
        [("checksum", .obj [("algo", .str (strToLower algo)),
                            ("sum", .str (hexOfBytes cks))])]
      | none => [])

/-! ### Claim theorems -/

/-- C3: for every errored File, `Offline()`, `LengthUnknown()` and `done()`
panic while `Err()` returns the stored (non-nil) error; for every offline
File, `LengthUnknown()` and `done()` panic while `Err()` returns nil and
`Offline()` returns true; for every online File, `Err()` returns nil,
`Offline()` returns false, and `done()` does not panic. -/
theorem uget_c3_file_contract (af : ApiFile) (orig curr : String) (e : String) :
    (GoFile.errM (mkErrored orig curr (some e)) = .ok (some e) ∧
     GoFile.offlineM (mkErrored orig curr (some e)) =
       .panic "Offline() on errored file" ∧
     GoFile.lengthUnknown (mkErrored orig curr (some e)) =
       .panic "LengthUnknown() on errored file" ∧
     GoFile.done (mkErrored orig curr (some e)) =
       .panic "done() on errored file") ∧
    (GoFile.errM (mkOffline orig curr) = .ok none ∧
     GoFile.offlineM (mkOffline orig curr) = .ok true ∧
     GoFile.lengthUnknown (mkOffline orig curr) =
       .panic "LengthUnknown() on offline file" ∧
     GoFile.done (mkOffline orig curr) = .panic "done() on offline file") ∧
    (GoFile.errM (mkOnline af orig) = .ok none ∧
     GoFile.offlineM (mkOnline af orig) = .ok false ∧
     GoFile.done (mkOnline af orig) = .ok ()) :=
  ⟨⟨rfl, rfl, rfl, rfl⟩, ⟨rfl, rfl, rfl, rfl⟩, ⟨rfl, rfl, rfl⟩⟩

/-- C5: `AddURLs` returns a wait group whose counter is `len(urls) + 1` at
the moment of return; the spawned enqueue-batch task submits exactly the
`len(urls)` root requests as one `enqueueAll` job to the resolver queue and
then decrements the counter by exactly one. -/
theorem uget_c5_addurls_counter (urls : List String) :
    (addURLs urls).1.counter = (urls.length : Int) + 1 ∧
    (addURLs urls).2.2.counter = (addURLs urls).1.counter - 1 ∧
    (addURLs urls).2.2.counter = (urls.length : Int) ∧
    (addURLs urls).2.1 =
      DJob.enqAll ((urls.enum).map fun p => rootRequest p.2 p.1) ∧
    ((urls.enum).map fun p => rootRequest p.2 p.1).length = urls.length := by
  refine ⟨?_, ?_, ?_, rfl, ?_⟩
  · simp [addURLs, WaitGroup.add]
  · simp [addURLs, addURLsTask, WaitGroup.add, WaitGroup.doneWG]
  · simp [addURLs, addURLsTask, WaitGroup.add, WaitGroup.doneWG]
  · rw [List.length_map, List.enum_length]

/-- C6 counterexample: the claim "for every File f, `f.ID()` equals the
digest of the string form of `f.URL()`" is false: an errored file's `URL()`
returns its current URL, but `ID()` reaches the nil embedded `api.File` and
panics (Go method promotion does not dispatch to the override). -/
theorem uget_c6_counterexample :
    ¬ (∀ (sha256hex : String → String) (f : GoFile) (u : String),
        GoFile.url f = Res.ok u → GoFile.id sha256hex f = Res.ok (sha256hex u)) := by
  intro hcl
  have h := hcl (fun st => st) (mkErrored "http://a" "http://b" (some "boom"))
    "http://b" rfl
  simp [GoFile.id, mkErrored, GoFile.core] at h

/-- C6 amended: for every online File, `ID()` is the (lowercase-hex SHA-256)
digest of its URL string, which equals `URL()`'s result; any two online
Files with equal URL strings get equal IDs, and the function is stable. -/
theorem uget_c6_online_id (sha256hex : String → String) (af af' : ApiFile)
    (orig orig' : String) :
    GoFile.id sha256hex (mkOnline af orig) = Res.ok (sha256hex af.url) ∧
    GoFile.url (mkOnline af orig) = Res.ok af.url ∧
    (af.url = af'.url →
      GoFile.id sha256hex (mkOnline af orig) =
        GoFile.id sha256hex (mkOnline af' orig')) := by
  refine ⟨rfl, rfl, ?_⟩
  intro h
  simp [GoFile.id, mkOnline, GoFile.core, h]

theorem uget_c6_witness :
    ("http://u" : String) = "http://u" ∧
      GoFile.id (fun st => st) (mkOnline ⟨"http://u", "n", 3, "p", none⟩ "o") =
        GoFile.id (fun st => st) (mkOnline ⟨"http://u", "m", 4, "q", none⟩ "o2") :=
  ⟨rfl, (uget_c6_online_id (fun st => st) ⟨"http://u", "n", 3, "p", none⟩
    ⟨"http://u", "m", 4, "q", none⟩ "o" "o2").2.2 rfl⟩

/-- C7 counterexample: JSON serialization does not produce an object for
every File: on an offline file, building the map evaluates `f.ID()` on the
nil embedded `api.File` and panics. -/
theorem uget_c7_counterexample :
    ¬ ∃ kvs, GoFile.marshalJSON (fun st => st) (mkOffline "http://a" "http://b") =
      Res.ok kvs := by
  rintro ⟨kvs, h⟩
  simp [GoFile.marshalJSON, mkOffline, GoFile.core] at h

/-- C7 amended: for every online File, `MarshalJSON` produces an object with
exactly the keys id, provider, name, url, size, plus a checksum object with
the lowercased algorithm under "algo" and the lowercase hex digest under
"sum" iff the file carries a checksum; a size of −1 is serialized as-is. -/
theorem uget_c7_online_marshal (sha256hex : String → String) (af : ApiFile)
    (orig : String) :
    ∃ kvs, GoFile.marshalJSON sha256hex (mkOnline af orig) = Res.ok kvs ∧
      kvs.map Prod.fst = ["id", "provider", "name", "url", "size"] ++
        (match af.checksum with | some _ => ["checksum"] | none => []) ∧
      ((∃ v, ("checksum", v) ∈ kvs) ↔ af.checksum ≠ none) ∧
      ("size", JVal.int af.size) ∈ kvs ∧
      (∀ cks algo, af.checksum = some (cks, algo) →
        ("checksum", JVal.obj [("algo", .str (strToLower algo)),
          ("sum", .str (hexOfBytes cks))]) ∈ kvs) := by
  obtain ⟨u, nm, sz, pv, cksO⟩ := af
  cases cksO with
  | none =>
    refine ⟨_, rfl, rfl, ?_, ?_, ?_⟩
    · constructor
      · rintro ⟨v, hv⟩
        simp [GoFile.marshalJSON, mkOnline, GoFile.core] at hv
      · intro hne
        exact absurd rfl hne
    · simp [GoFile.marshalJSON, mkOnline, GoFile.core]
    · intro cks algo h
      exact Option.noConfusion h
  | some p =>
    obtain ⟨cks, algo⟩ := p
    refine ⟨_, rfl, rfl, ?_, ?_, ?_⟩
    · refine ⟨fun _ => by simp, fun _ =>
        ⟨JVal.obj [("algo", .str (strToLower algo)), ("sum", .str (hexOfBytes cks))],
          by simp [GoFile.marshalJSON, mkOnline, GoFile.core]⟩⟩
    · simp [GoFile.marshalJSON, mkOnline, GoFile.core]
    · intro cks' algo' h
      injection h with h2
      injection h2 with h3 h4
      subst h3
      subst h4
      simp [GoFile.marshalJSON, mkOnline, GoFile.core]

theorem uget_c7_witness :
    (⟨"u", "n", -1, "p", some ([171, 1], "MD5")⟩ : ApiFile).checksum =
        some ([171, 1], "MD5") ∧
    (strToLower "MD5" = "md5" ∧ hexOfBytes [171, 1] = "ab01") ∧
    ∃ kvs, GoFile.marshalJSON (fun st => st)
        (mkOnline ⟨"u", "n", -1, "p", some ([171, 1], "MD5")⟩ "o") = Res.ok kvs ∧
      ("checksum", JVal.obj [("algo", .str (strToLower "MD5")),
        ("sum", .str (hexOfBytes [171, 1]))]) ∈ kvs ∧
      ("size", JVal.int (-1)) ∈ kvs := by
  refine ⟨rfl, ⟨rfl, rfl⟩, ?_⟩
  obtain ⟨kvs, h1, h2, h3, h4, h5⟩ := uget_c7_online_marshal (fun st => st)
    ⟨"u", "n", -1, "p", some ([171, 1], "MD5")⟩ "o"
  exact ⟨kvs, h1, h5 [171, 1] "MD5" rfl, h4⟩

/-- C8: `Stop()` closes the `get` and `getAll` channels of both the resolved
and the resolver queue immediately — the heaps are untouched, no drain is
awaited — and afterwards no run of either dispatcher delivers anything on
those channels. -/
theorem uget_c8_stop_immediate (c : ClientState) (evts evts' : List DEvent) :
    (clientStop c).ResolvedQueue.getClosed = true ∧
    (clientStop c).ResolvedQueue.getAllClosed = true ∧
    (clientStop c).resolverQueue.getClosed = true ∧
    (clientStop c).resolverQueue.getAllClosed = true ∧
    (clientStop c).ResolvedQueue.heap = c.ResolvedQueue.heap ∧
    (clientStop c).resolverQueue.heap = c.resolverQueue.heap ∧
    (runD evts (clientStop c).ResolvedQueue).2 = [] ∧
    (runD evts' (clientStop c).resolverQueue).2 = [] :=
  ⟨rfl, rfl, rfl, rfl, rfl, rfl,
    runD_closed_no_output evts _ rfl rfl,
    runD_closed_no_output evts' _ rfl rfl⟩

/-- C1: in every dispatcher run of a queue holding only resolved requests
(the resolved queue, by construction), each file delivered on `Dequeue` is
assigned a `SeqNum` (`popOrder`) equal to the number of prior pops, so the
delivered `SeqNum`s read `0, 1, 2, …` — strictly increasing, no gaps, no
repeats — regardless of interleaved mutation jobs and `getAll` drains. -/
theorem uget_c1_seqnum_monotone (evts : List DEvent)
    (hres : ∀ e ∈ evts, evtPushesResolved e = true) :
    List.map Request.popOrder (popReqs (runD evts initQueue).2) =
      List.map Int.ofNat
        (List.range (popReqs (runD evts initQueue).2).length) := by
  rw [List.range_eq_range']
  exact runD_seqnums evts initQueue hres heapResolved_nil

theorem uget_c1_witness :
    (∀ e ∈ ([.job (.enq ⟨5, 0, true, "a", -1, 1⟩),
             .job (.enq ⟨1, 1, true, "b", -1, 2⟩), .get, .drain,
             .job (.enqAll [⟨2, 2, true, "c", -1, 3⟩]), .job .list, .get] :
        List DEvent), evtPushesResolved e = true) ∧
      List.map Request.popOrder (popReqs (runD
          [.job (.enq ⟨5, 0, true, "a", -1, 1⟩),
           .job (.enq ⟨1, 1, true, "b", -1, 2⟩), .get, .drain,
           .job (.enqAll [⟨2, 2, true, "c", -1, 3⟩]), .job .list, .get]
          initQueue).2) =
        List.map Int.ofNat (List.range (popReqs (runD
          [.job (.enq ⟨5, 0, true, "a", -1, 1⟩),
           .job (.enq ⟨1, 1, true, "b", -1, 2⟩), .get, .drain,
           .job (.enqAll [⟨2, 2, true, "c", -1, 3⟩]), .job .list, .get]
          initQueue).2).length) :=
  ⟨by decide, uget_c1_seqnum_monotone _ (by decide)⟩

/-- C2: every pop delivers the `(priority, insertion-order)`-minimal request
of the heap at that moment: nothing then queued is `less` than the
delivered request, and a request is never delivered while a strictly
`less` request is present. -/
theorem uget_c2_priority_order (evts : List DEvent) (req : Request)
    (hb ha : List Request)
    (hmem : QOut.pop req hb ha ∈ (runD evts initQueue).2) :
    (∀ y ∈ hb, y.less req = false) ∧
      (∀ a b, a ∈ hb → b ∈ hb → a.less b = true → req ≠ b) := by
  obtain ⟨h1, h2, h3, h4⟩ := runD_pops evts initQueue heapInv_nil req hb ha hmem
  refine ⟨h2, ?_⟩
  intro a b hain hbin hab heq
  subst heq
  rw [h2 a hain] at hab
  exact Bool.noConfusion hab

/-- Concrete three-event run used by the pop witnesses: enqueue a priority-5
and a priority-1 request, then pop once. -/
theorem run3_eval :
    (runD [.job (.enq ⟨5, 0, true, "a", -1, 1⟩),
           .job (.enq ⟨1, 1, true, "b", -1, 2⟩), .get] initQueue).2 =
      [QOut.pop ⟨1, 1, true, "b", 0, 2⟩
        [⟨1, 1, true, "b", 0, 2⟩, ⟨5, 0, true, "a", 0, 1⟩]
        [⟨5, 0, true, "a", 0, 1⟩]] := by
  simp +decide [runD, applyJob, heapPush, up, lswap, mark, heapPop, downAux,
    minChild, Request.less, initQueue]

theorem uget_c2_witness :
    (QOut.pop ⟨1, 1, true, "b", 0, 2⟩
        [⟨1, 1, true, "b", 0, 2⟩, ⟨5, 0, true, "a", 0, 1⟩]
        [⟨5, 0, true, "a", 0, 1⟩] ∈
      (runD [.job (.enq ⟨5, 0, true, "a", -1, 1⟩),
             .job (.enq ⟨1, 1, true, "b", -1, 2⟩), .get] initQueue).2) ∧
      (∀ y ∈ [⟨1, 1, true, "b", 0, 2⟩, ⟨5, 0, true, "a", 0, 1⟩],
        Request.less y ⟨1, 1, true, "b", 0, 2⟩ = false) :=
  ⟨by rw [run3_eval]; decide,
    (uget_c2_priority_order
      [.job (.enq ⟨5, 0, true, "a", -1, 1⟩),
       .job (.enq ⟨1, 1, true, "b", -1, 2⟩), .get]
      ⟨1, 1, true, "b", 0, 2⟩
      [⟨1, 1, true, "b", 0, 2⟩, ⟨5, 0, true, "a", 0, 1⟩]
      [⟨5, 0, true, "a", 0, 1⟩] (by rw [run3_eval]; decide)).1⟩

/-- C4: (i) once `Finalize`'s job has set the flag and the heap is (or
becomes) empty, the dispatcher closes both output channels and exits,
whatever events are pending; (ii) in a run from a fresh queue, the channels
are never closed unless `finalized` is set and the heap is empty; (iii)
while the heap is empty but not finalized the dispatcher only serves jobs —
`get`/`drain` iterations change nothing. -/
theorem uget_c4_finalize_close (evts : List DEvent) (s : DState) :
    (s.heap = [] → s.finalized = true → s.dead = false →
      (runD evts s).1.getClosed = true ∧ (runD evts s).1.getAllClosed = true ∧
        (runD evts s).1.dead = true ∧ (runD evts s).1.heap = []) ∧
    (((runD evts initQueue).1.getClosed = true ∨
        (runD evts initQueue).1.getAllClosed = true) →
      (runD evts initQueue).1.finalized = true ∧
        (runD evts initQueue).1.heap = []) ∧
    (s.heap = [] → s.finalized = false → s.dead = false →
      runD (.get :: evts) s = runD evts s ∧
        runD (.drain :: evts) s = runD evts s) := by
  refine ⟨?_, ?_, ?_⟩
  · intro hh hf hd
    obtain ⟨h, o, f, gc, gac, d⟩ := s
    cases hh
    cases hf
    cases hd
    rw [runD_close]
    exact ⟨rfl, rfl, rfl, rfl⟩
  · intro hcl
    obtain ⟨a, b, _, _⟩ := runD_close_safety evts initQueue rfl rfl hcl
    exact ⟨a, b⟩
  · intro hh hf hd
    obtain ⟨h, o, f, gc, gac, d⟩ := s
    cases hh
    cases hf
    cases hd
    exact ⟨runD_nil_get evts o gc gac, runD_nil_drain evts o gc gac⟩

theorem uget_c4_witness :
    ((⟨[], 7, true, false, false, false⟩ : DState).heap = [] ∧
     (⟨[], 7, true, false, false, false⟩ : DState).finalized = true ∧
     (⟨[], 7, true, false, false, false⟩ : DState).dead = false) ∧
      ((runD [.get] ⟨[], 7, true, false, false, false⟩).1.getClosed = true ∧
       (runD [.get] ⟨[], 7, true, false, false, false⟩).1.getAllClosed = true ∧
       (runD [.get] ⟨[], 7, true, false, false, false⟩).1.dead = true ∧
       (runD [.get] ⟨[], 7, true, false, false, false⟩).1.heap = []) :=
  ⟨⟨rfl, rfl, rfl⟩,
    (uget_c4_finalize_close [.get] ⟨[], 7, true, false, false, false⟩).1 rfl rfl rfl⟩

/-- C9: `pQueue.Pop` shortens the backing slice by exactly one and returns
nil; the dispatcher peeks before `heap.Pop`, so the value delivered on `get`
is the heap front — minimal among everything queued — and is exactly the
entry removed right after. -/
theorem uget_c9_pop_discard_min (pq : List Request) (hne : pq ≠ [])
    (evts : List DEvent) (req : Request) (hb ha : List Request)
    (hmem : QOut.pop req hb ha ∈ (runD evts initQueue).2) :
    (pQueuePop pq = some (pq.take (pq.length - 1), none) ∧
      (pq.take (pq.length - 1)).length + 1 = pq.length) ∧
    (hb[0]? = some req ∧ (∀ y ∈ hb, y.less req = false) ∧
      ha = heapPop hb ∧ hb ~ req :: ha) := by
  constructor
  · constructor
    · unfold pQueuePop
      rw [if_neg (by simp [hne])]
    · rw [List.length_take]
      have hlen : pq.length ≠ 0 := fun h0 => hne (List.eq_nil_of_length_eq_zero h0)
      omega
  · obtain ⟨h1, h2, h3, h4⟩ := runD_pops evts initQueue heapInv_nil req hb ha hmem
    exact ⟨h1, h2, h4, h3⟩

theorem uget_c9_witness :
    (([⟨5, 0, true, "a", 0, 1⟩] : List Request) ≠ [] ∧
      QOut.pop ⟨1, 1, true, "b", 0, 2⟩
        [⟨1, 1, true, "b", 0, 2⟩, ⟨5, 0, true, "a", 0, 1⟩]
        [⟨5, 0, true, "a", 0, 1⟩] ∈
      (runD [.job (.enq ⟨5, 0, true, "a", -1, 1⟩),
             .job (.enq ⟨1, 1, true, "b", -1, 2⟩), .get] initQueue).2) ∧
    (pQueuePop [⟨5, 0, true, "a", 0, 1⟩] =
        some ([(⟨5, 0, true, "a", 0, 1⟩ : Request)].take 0, none) ∧
      ([⟨1, 1, true, "b", 0, 2⟩, ⟨5, 0, true, "a", 0, 1⟩] : List Request)[0]? =
        some ⟨1, 1, true, "b", 0, 2⟩) := by
  refine ⟨⟨by decide, by rw [run3_eval]; decide⟩, ?_, ?_⟩
  · exact ((uget_c9_pop_discard_min [⟨5, 0, true, "a", 0, 1⟩] (by decide)
      [.job (.enq ⟨5, 0, true, "a", -1, 1⟩),
       .job (.enq ⟨1, 1, true, "b", -1, 2⟩), .get]
      ⟨1, 1, true, "b", 0, 2⟩
      [⟨1, 1, true, "b", 0, 2⟩, ⟨5, 0, true, "a", 0, 1⟩]
      [⟨5, 0, true, "a", 0, 1⟩] (by rw [run3_eval]; decide)).1).1
  · exact (((uget_c9_pop_discard_min [⟨5, 0, true, "a", 0, 1⟩] (by decide)
      [.job (.enq ⟨5, 0, true, "a", -1, 1⟩),
       .job (.enq ⟨1, 1, true, "b", -1, 2⟩), .get]
      ⟨1, 1, true, "b", 0, 2⟩
      [⟨1, 1, true, "b", 0, 2⟩, ⟨5, 0, true, "a", 0, 1⟩]
      [⟨5, 0, true, "a", 0, 1⟩] (by rw [run3_eval]; decide)).2).1)

/-- C10: `List()` returns the queued entries (whose files the Go code
collects) sorted ascending by `(priority, insertion-order)` — a permutation
of the heap obtained by popping a copied snapshot — and leaves the queue
unchanged: the state after is the state before, and the `List` job is the
identity on the dispatcher state. -/
theorem uget_c10_list_sorted_frame (s : DState) (hinv : heapInv s.heap) :
    (queueList s).1 ~ s.heap ∧
      List.Pairwise (fun a b => b.less a = false) (queueList s).1 ∧
      (queueList s).2 = s ∧ applyJob s .list = s :=
  ⟨popAllReqs_perm s.heap, popAllReqs_sorted hinv, rfl, rfl⟩

theorem uget_c10_witness :
    heapInv [⟨1, 0, true, "a", -1, 1⟩, ⟨2, 1, true, "b", -1, 2⟩] ∧
      ((queueList ⟨[⟨1, 0, true, "a", -1, 1⟩, ⟨2, 1, true, "b", -1, 2⟩],
          0, false, false, false, false⟩).1 ~
        [⟨1, 0, true, "a", -1, 1⟩, ⟨2, 1, true, "b", -1, 2⟩] ∧
       List.Pairwise (fun a b => Request.less b a = false)
        (queueList ⟨[⟨1, 0, true, "a", -1, 1⟩, ⟨2, 1, true, "b", -1, 2⟩],
          0, false, false, false, false⟩).1) := by
  have hinv : heapInv [⟨1, 0, true, "a", -1, 1⟩, ⟨2, 1, true, "b", -1, 2⟩] := by
    intro k hk0 hkn x y hx hy
    simp only [List.length_cons, List.length_nil] at hkn
    have hk1 : k = 1 := by omega
    subst hk1
    simp only [List.getElem?_cons_succ, List.getElem?_cons_zero] at hx hy
    cases hx
    cases hy
    decide
  have h := uget_c10_list_sorted_frame
    ⟨[⟨1, 0, true, "a", -1, 1⟩, ⟨2, 1, true, "b", -1, 2⟩],
      0, false, false, false, false⟩ hinv
  exact ⟨hinv, h.1, h.2.1⟩

end Uget
